import Mathlib

/-!
Shallow embedding of the product-catalog CRUD service
(`src/API/models.py`, `src/API/api.py`).

Python strings are modelled as `List Char` (`Str`); Python `Decimal`
values as exact rationals `ℚ`; Python `dict`s as insertion-ordered
association lists (assignment to an existing key keeps its position,
assignment to a fresh key appends — the CPython ≥ 3.7 behavior);
`uuid4()`-generated ids as `Nat` values supplied externally together
with a freshness hypothesis.
-/

namespace Catalogo

/-- Python strings, modelled as lists of Unicode code points. -/
abbrev Str := List Char

/-- Whitespace recognised by `str.strip()` / `str.split()` for the ASCII
range (the inputs exercised by the service use only these). -/
def pyIsSpace (c : Char) : Bool :=
  c = ' ' || c = '\t' || c = '\n' || c = '\x0d' || c = '\x0b' || c = '\x0c'

/-- Python `str.strip()`: drop leading and trailing whitespace. -/
def pyStrip (s : Str) : Str :=
  ((s.dropWhile pyIsSpace).reverse.dropWhile pyIsSpace).reverse

/-- Python `str.lower()` on one code point, for the Basic Latin and Latin-1
ranges (every character admitted by the validators lies there); code
points without a lower-case mapping are returned unchanged. -/
def pyLower1 (c : Char) : Char :=
  if 'A' ≤ c ∧ c ≤ 'Z' then Char.ofNat (c.toNat + 32)
  else if 0xC0 ≤ c.toNat ∧ c.toNat ≤ 0xDE ∧ c.toNat ≠ 0xD7 then Char.ofNat (c.toNat + 32)
  else c

/-- Python `str.lower()`. -/
def pyLower (s : Str) : Str := s.map pyLower1

/-- NFKD decomposition followed by removal of combining marks, on one
code point: precomposed accented Latin letters used by the service map
to their base letter, combining marks (U+0300–U+036F) vanish, everything
else is unchanged. This is `unicodedata` restricted to the repertoire
the validators admit. -/
def stripAccents1 : Char → List Char
  | 'á' => ['a'] | 'é' => ['e'] | 'í' => ['i'] | 'ó' => ['o'] | 'ú' => ['u']
  | 'Á' => ['A'] | 'É' => ['E'] | 'Í' => ['I'] | 'Ó' => ['O'] | 'Ú' => ['U']
  | 'ñ' => ['n'] | 'Ñ' => ['N']
  | 'ü' => ['u'] | 'Ü' => ['U']
  | c => if 0x300 ≤ c.toNat ∧ c.toNat ≤ 0x36F then [] else [c]

/-- The `_strip_accents` helper from `models.py`. -/
def strip_accents (s : Str) : Str := (s.map stripAccents1).flatten

/-- Tokenizer behind `str.split()`: `acc` holds the (reversed) current
token; a whitespace character closes the token, a non-whitespace
character extends it. -/
def splitWsAux : Str → Str → List Str
  | [], acc => if acc = [] then [] else [acc.reverse]
  | c :: cs, acc =>
    if pyIsSpace c then
      if acc = [] then splitWsAux cs [] else acc.reverse :: splitWsAux cs []
    else splitWsAux cs (c :: acc)

/-- Python `str.split()` with no separator: split on runs of whitespace,
discarding empty tokens. -/
def splitWs (s : Str) : List Str := splitWsAux s []

/-- Python `" ".join(tokens)`. -/
def joinWs : List Str → Str
  | [] => []
  | [t] => t
  | t :: t' :: ts => t ++ ' ' :: joinWs (t' :: ts)

/-- The collapse `" ".join(s.strip().split())` — the whitespace-collapsing step of
the name validator. -/
def collapseWs (s : Str) : Str := joinWs (splitWs (pyStrip s))

/-- First character class of `_name_re`:
`[A-Za-zÁÉÍÓÚáéíóúÑñ0-9]`. -/
def isAlnumES (c : Char) : Bool :=
  decide (('A' ≤ c ∧ c ≤ 'Z') ∨ ('a' ≤ c ∧ c ≤ 'z') ∨ ('0' ≤ c ∧ c ≤ '9') ∨
    c = 'Á' ∨ c = 'É' ∨ c = 'Í' ∨ c = 'Ó' ∨ c = 'Ú' ∨
    c = 'á' ∨ c = 'é' ∨ c = 'í' ∨ c = 'ó' ∨ c = 'ú' ∨ c = 'Ñ' ∨ c = 'ñ')

/-- Tail character class of `_name_re`: `[A-Za-zÁÉÍÓÚáéíóúÑñ0-9 \-_.]`. -/
def isNameTail (c : Char) : Bool :=
  isAlnumES c || c = ' ' || c = '-' || c = '_' || c = '.'

/-- Anchored match of
`_name_re = ^[clase1][clase2]{2,79}$`: first character alphanumeric
(incl. accented Latin), 2–79 further characters from the tail class.
The collapsed input contains no newline, so `$` is end of string. -/
def nameOk : Str → Bool
  | [] => false
  | c :: cs => isAlnumES c && decide (2 ≤ cs.length) && decide (cs.length ≤ 79) && cs.all isNameTail

/-- Full validation pipeline for the `nombre` field of `ProductoCreate`
(and `ProductoUpdate` when the field is present): the declared
`Field(min_length=3, max_length=80)` constraint on the raw string runs
first, then the `validar_nombre` after-validator collapses whitespace
and matches `_name_re`. -/
def validar_nombre (raw : Str) : Option Str :=
  if raw.length < 3 then none
  else if 80 < raw.length then none
  else
    let v := joinWs (splitWs (pyStrip raw))
    if nameOk v then some v else none

/-! ### Decimal prices

A finite Python `Decimal` is an exact rational; `quantize(Decimal("0.01"),
rounding=ROUND_HALF_UP)` rounds to an integer number of hundredths, ties
away from zero. (`InvalidOperation` arises only for non-finite inputs,
which have no counterpart in this embedding.) -/

/-- Round to the nearest integer, ties away from zero (`ROUND_HALF_UP`). -/
def halfUp (x : ℚ) : ℤ :=
  if 0 ≤ x then ⌊x + 1 / 2⌋ else -⌊-x + 1 / 2⌋

/-- Python `v.quantize(Decimal("0.01"), rounding=ROUND_HALF_UP)`. -/
def quantize2 (v : ℚ) : ℚ := (halfUp (100 * v) : ℚ) / 100

/-- Full validation pipeline for the `precio` field: the declared
`Field(gt=0, le=Decimal("1000000"))` constraints run on the raw value
first, then the `validar_precio` after-validator quantizes to hundredths
with `ROUND_HALF_UP` and rejects a non-positive result. -/
def validar_precio (v : ℚ) : Option ℚ :=
  if ¬ (0 < v) then none
  else if ¬ (v ≤ 1000000) then none
  else
    let q := quantize2 v
    if q ≤ 0 then none else some q

/-! ### Categories -/

/-- The set `CATEGORIAS_PERMITIDAS` from `models.py` (membership is all that the
code uses, so the Python `set` is modelled as a list). -/
def CATEGORIAS_PERMITIDAS : List Str :=
  ["fruta".toList, "verdura".toList, "grano".toList, "legumbre".toList,
   "lacteo".toList, "carnico".toList, "procesado".toList, "organico".toList,
   "bebida".toList, "especia".toList]

/-- Normalization of one category entry:
`_strip_accents(" ".join(c.strip().lower().split()))`. -/
def normCat (c : Str) : Str :=
  strip_accents (joinWs (splitWs (pyLower (pyStrip c))))

/-- The `for` loop of `validar_categorias`: `limpias` is the (reversed)
accumulator, `vistos` the set of normalized values already seen. -/
def validarCatLoop : List Str → List Str → List Str → Option (List Str)
  | [], _, limpias => some limpias.reverse
  | c :: cs, vistos, limpias =>
    let cNorm := normCat c
    if cNorm = [] ∨ cNorm ∉ CATEGORIAS_PERMITIDAS then none
    else if cNorm ∈ vistos then validarCatLoop cs vistos limpias
    else validarCatLoop cs (cNorm :: vistos) (cNorm :: limpias)

/-- Full validation pipeline for the `categorias` field: the declared
`Field(min_items=1, max_items=10)` constraints run on the raw list
first, then the `validar_categorias` after-validator normalizes,
checks membership in the allowed set and deduplicates keeping the first
occurrence. -/
def validar_categorias (valores : List Str) : Option (List Str) :=
  if valores.length < 1 then none
  else if 10 < valores.length then none
  else validarCatLoop valores [] []

/-- Keep-the-first-occurrence deduplication, written independently of
the accumulator loop; used to characterize `validar_categorias`. -/
def dedupKeepFirst : List Str → List Str
  | [] => []
  | a :: as => a :: (dedupKeepFirst as).filter (fun b => b ≠ a)

/-! ### Models (`models.py`) -/

/-- A validated `ProductoCreate` payload (field values as they sit in
the model after validation). -/
structure ProductoCreate where
  nombre : Str
  precio : ℚ
  categorias : List Str
  deriving DecidableEq

/-- Validation of a raw `ProductoCreate` payload: every field validator
must succeed. -/
def mkProductoCreate (nombre : Str) (precio : ℚ) (categorias : List Str) :
    Option ProductoCreate :=
  match validar_nombre nombre, validar_precio precio, validar_categorias categorias with
  | some n, some p, some c => some ⟨n, p, c⟩
  | _, _, _ => none

/-- A validated `ProductoUpdate` payload; `none` is an unset field
(`exclude_unset` drops it from the patch). -/
structure ProductoUpdate where
  nombre : Option Str
  precio : Option ℚ
  categorias : Option (List Str)
  deriving DecidableEq

/-- Validation of a raw `ProductoUpdate` payload: each present field
goes through the same validator as in `ProductoCreate`; absent fields
pass through. -/
def mkProductoUpdate (nombre : Option Str) (precio : Option ℚ)
    (categorias : Option (List Str)) : Option ProductoUpdate :=
  match nombre, precio, categorias with
  | n, p, c =>
    match n.elim (some none) (fun x => (validar_nombre x).map some),
          p.elim (some none) (fun x => (validar_precio x).map some),
          c.elim (some none) (fun x => (validar_categorias x).map some) with
    | some n', some p', some c' => some ⟨n', p', c'⟩
    | _, _, _ => none

/-- Model `ProductoOut`: a stored product (validated fields plus the id that
`uuid4()` produced at creation, modelled as a `Nat`). -/
structure Producto where
  id : Nat
  nombre : Str
  precio : ℚ
  categorias : List Str
  deriving DecidableEq

/-! ### Insertion-ordered dictionaries

CPython dictionaries preserve insertion order; assigning to an existing
key overwrites in place, assigning to a new key appends, `del` removes
the single entry with that key. -/

/-- Assignment `d[k] = v` on an association list. -/
def alInsert : List (Str × Nat) → Str → Nat → List (Str × Nat)
  | [], k, v => [(k, v)]
  | kv :: rest, k, v => if kv.1 = k then (k, v) :: rest else kv :: alInsert rest k v

/-- Lookup `d.get(k)` on an association list. -/
def alGet : List (Str × Nat) → Str → Option Nat
  | [], _ => none
  | kv :: rest, k => if kv.1 = k then some kv.2 else alGet rest k

/-- Deletion `del d[k]` on an association list (identity when the key is absent;
the source only deletes after an explicit presence check). -/
def alErase : List (Str × Nat) → Str → List (Str × Nat)
  | [], _ => []
  | kv :: rest, k => if kv.1 = k then rest else kv :: alErase rest k

/-- Assignment `self._items[item.id] = item` on the id-keyed product dictionary. -/
def itemsInsert : List Producto → Producto → List Producto
  | [], q => [q]
  | p :: ps, q => if p.id = q.id then q :: ps else p :: itemsInsert ps q

/-- Deletion `del self._items[id_]`. -/
def itemsErase : List Producto → Nat → List Producto
  | [], _ => []
  | p :: ps, i => if p.id = i then ps else p :: itemsErase ps i

/-! ### Repository (`api.py`) -/

/-- State of `RepoProductos`: `_items` (id → product) and `_name_to_id`
(normalized name → id), both insertion-ordered dictionaries. -/
structure Repo where
  items : List Producto
  nameToId : List (Str × Nat)
  deriving DecidableEq

/-- The empty repository (`RepoProductos.__init__`). -/
def Repo.vacio : Repo := ⟨[], []⟩

/-- Error outcomes that the endpoints surface (HTTP 404 / 409 / 422 /
400 in the source). -/
inductive ApiError where
  | notFound
  | duplicateName
  | validationErr
  | badRequest
  deriving DecidableEq

/-- Method `RepoProductos._norm_name`: `nombre.lower()`. -/
def norm_name (nombre : Str) : Str := pyLower nombre

/-- Method `RepoProductos.existe_nombre`. A `UUID` object is always truthy, so
`if exclude_id and found == exclude_id` tests `found == exclude_id`
exactly when `exclude_id` is present. -/
def existe_nombre (r : Repo) (nombreNorm : Str) (excludeId : Option Nat) : Bool :=
  match alGet r.nameToId nombreNorm with
  | none => false
  | some found =>
    match excludeId with
    | some e => decide (found ≠ e)
    | none => true

/-- Method `RepoProductos.crear`: build the `ProductoOut` (rebuilding the model
from the validated payload re-runs the validators, which by
idempotency return the same values — see `mkProductoCreate_fix`),
store it, and index its normalized name. `newId` stands for the
`uuid4()` default. -/
def crear (r : Repo) (prod : ProductoCreate) (newId : Nat) : Repo × Producto :=
  let item : Producto := ⟨newId, prod.nombre, prod.precio, prod.categorias⟩
  (⟨itemsInsert r.items item, alInsert r.nameToId (norm_name item.nombre) item.id⟩, item)

/-- Method `RepoProductos.obtener`. -/
def obtener (r : Repo) (id_ : Nat) : Option Producto :=
  r.items.find? (fun p => decide (p.id = id_))

/-- The filter pipeline of `RepoProductos.listar` (lines 55–71): text
search, category, and price-range filters applied in that order. -/
def filtrar (items : List Producto) (q categoria : Option Str)
    (minPrecio maxPrecio : Option ℚ) : List Producto :=
  let datos := items
  let datos := match q with
    | none => datos
    | some qs =>
      if qs = [] then datos
      else
        let qn := strip_accents (pyLower (pyStrip qs))
        datos.filter (fun p => decide (qn <:+: strip_accents (pyLower p.nombre)))
  let datos := match categoria with
    | none => datos
    | some cs =>
      if cs = [] then datos
      else
        let cat := strip_accents (pyLower (pyStrip cs))
        datos.filter (fun p => p.categorias.contains cat)
  let datos := match minPrecio with
    | none => datos
    | some m => datos.filter (fun p => decide (m ≤ p.precio))
  let datos := match maxPrecio with
    | none => datos
    | some m => datos.filter (fun p => decide (p.precio ≤ m))
  datos

/-- Method `RepoProductos.listar`: filter, count (`total`) before paginating,
then return the slice `datos[offset : offset + limit]`. -/
def listar (r : Repo) (q categoria : Option Str) (minPrecio maxPrecio : Option ℚ)
    (limit offset : Nat) : List Producto × Nat :=
  let datos := filtrar r.items q categoria minPrecio maxPrecio
  let total := datos.length
  ((datos.drop offset).take limit, total)

/-- Method `RepoProductos.actualizar_full`. -/
def actualizar_full (r : Repo) (id_ : Nat) (prod : ProductoCreate) :
    Except ApiError (Repo × Producto) :=
  match obtener r id_ with
  | none => .error .notFound
  | some actual =>
    let nombreNorm := norm_name prod.nombre
    if existe_nombre r nombreNorm (some id_) then .error .duplicateName
    else
      let idx := alErase r.nameToId (norm_name actual.nombre)
      let nuevo : Producto := ⟨id_, prod.nombre, prod.precio, prod.categorias⟩
      .ok (⟨itemsInsert r.items nuevo, alInsert idx nombreNorm id_⟩, nuevo)

/-- Method `RepoProductos.actualizar_partial`: merge the patch onto the current
snapshot, re-validate through `ProductoCreate`, check uniqueness when
the case-folded name changed, then delegate to `actualizar_full`. -/
def actualizar_parcial (r : Repo) (id_ : Nat) (cambios : ProductoUpdate) :
    Except ApiError (Repo × Producto) :=
  match obtener r id_ with
  | none => .error .notFound
  | some actual =>
    let baseNombre := cambios.nombre.getD actual.nombre
    let basePrecio := cambios.precio.getD actual.precio
    let baseCategorias := cambios.categorias.getD actual.categorias
    match mkProductoCreate baseNombre basePrecio baseCategorias with
    | none => .error .validationErr
    | some candidato =>
      if pyLower candidato.nombre ≠ pyLower actual.nombre ∧
          existe_nombre r (norm_name candidato.nombre) none = true then
        .error .duplicateName
      else actualizar_full r id_ candidato

/-- Method `RepoProductos.borrar`: remove the record; remove the name-index
entry only if it still points at this id. -/
def borrar (r : Repo) (id_ : Nat) : Except ApiError Repo :=
  match obtener r id_ with
  | none => .error .notFound
  | some actual =>
    let items := itemsErase r.items id_
    let nm := norm_name actual.nombre
    let idx := if alGet r.nameToId nm = some id_ then alErase r.nameToId nm else r.nameToId
    .ok ⟨items, idx⟩

/-! ### Endpoints (`api.py`, lines 146–212) -/

/-- Endpoint `POST /api/productos` (`crear_producto`): duplicate-name check on
the lower-cased validated name, then `repo.crear`. -/
def crear_producto (r : Repo) (payload : ProductoCreate) (newId : Nat) :
    Except ApiError (Repo × Producto) :=
  if existe_nombre r (pyLower payload.nombre) none then .error .duplicateName
  else .ok (crear r payload newId)

/-- Endpoint `PUT /api/productos/{id}` (`reemplazar_producto`). -/
def reemplazar_producto (r : Repo) (id_ : Nat) (payload : ProductoCreate) :
    Except ApiError (Repo × Producto) :=
  actualizar_full r id_ payload

/-- Endpoint `PATCH /api/productos/{id}` (`actualizar_parcial_producto`): at
least one field must be present in the body. -/
def actualizar_parcial_producto (r : Repo) (id_ : Nat) (payload : ProductoUpdate) :
    Except ApiError (Repo × Producto) :=
  if payload.nombre = none ∧ payload.precio = none ∧ payload.categorias = none then
    .error .badRequest
  else actualizar_parcial r id_ payload

/-- Endpoint `DELETE /api/productos/{id}` (`eliminar_producto`). -/
def eliminar_producto (r : Repo) (id_ : Nat) : Except ApiError Repo :=
  borrar r id_

/-! ### Reachable states

States produced from the empty repository by any sequence of successful
public-endpoint mutations. Every payload enters through the pydantic
validators (`mkProductoCreate` / `mkProductoUpdate`); the id passed to
`crear` is the fresh `uuid4()` value (freshness hypothesis). -/

inductive Reachable : Repo → Prop where
  | empty : Reachable Repo.vacio
  | create {r r' : Repo} {rawN : Str} {rawP : ℚ} {rawC : List Str}
      {pc : ProductoCreate} {newId : Nat} {out : Producto} :
      Reachable r →
      mkProductoCreate rawN rawP rawC = some pc →
      (∀ p ∈ r.items, p.id ≠ newId) →
      crear_producto r pc newId = .ok (r', out) →
      Reachable r'
  | replace {r r' : Repo} {rawN : Str} {rawP : ℚ} {rawC : List Str}
      {pc : ProductoCreate} {id_ : Nat} {out : Producto} :
      Reachable r →
      mkProductoCreate rawN rawP rawC = some pc →
      reemplazar_producto r id_ pc = .ok (r', out) →
      Reachable r'
  | patch {r r' : Repo} {rawN : Option Str} {rawP : Option ℚ} {rawC : Option (List Str)}
      {pu : ProductoUpdate} {id_ : Nat} {out : Producto} :
      Reachable r →
      mkProductoUpdate rawN rawP rawC = some pu →
      actualizar_parcial_producto r id_ pu = .ok (r', out) →
      Reachable r'
  | delete {r r' : Repo} {id_ : Nat} :
      Reachable r →
      eliminar_producto r id_ = .ok r' →
      Reachable r'


def alKeys (l : List (Str × Nat)) : List Str := l.map Prod.fst

theorem alGet_eq_some_iff {l : List (Str × Nat)} (hnd : (alKeys l).Nodup) {k : Str} {v : Nat} :
    alGet l k = some v ↔ (k, v) ∈ l := by
  induction l with
  | nil => simp [alGet]
  | cons hd rest ih =>
    obtain ⟨a, b⟩ := hd
    simp only [alKeys, List.map_cons, List.nodup_cons] at hnd
    by_cases hk : a = k
    · subst hk
      simp only [alGet, if_pos, List.mem_cons, Option.some_inj, Prod.mk.injEq, true_and]
      constructor
      · rintro rfl
        exact Or.inl rfl
      · rintro (rfl | h)
        · rfl
        · exact absurd (List.mem_map_of_mem Prod.fst h) hnd.1
    · simp only [alGet, if_neg hk, List.mem_cons, ih hnd.2, Prod.mk.injEq]
      constructor
      · exact Or.inr
      · rintro (⟨rfl, -⟩ | h)
        · exact absurd rfl hk
        · exact h

theorem alGet_eq_none_iff {l : List (Str × Nat)} {k : Str} :
    alGet l k = none ↔ k ∉ alKeys l := by
  induction l with
  | nil => simp [alGet, alKeys]
  | cons hd rest ih =>
    obtain ⟨a, b⟩ := hd
    by_cases hk : a = k
    · simp [alGet, hk, alKeys]
    · simp only [alGet, if_neg hk, alKeys, List.map_cons, List.mem_cons, ih]
      constructor
      · rintro h (rfl | hm)
        · exact hk rfl
        · exact h hm
      · intro h hm
        exact h (Or.inr hm)

theorem mem_alInsert {l : List (Str × Nat)} (hnd : (alKeys l).Nodup)
    {k : Str} {v : Nat} {kv : Str × Nat} :
    kv ∈ alInsert l k v ↔ kv = (k, v) ∨ (kv ∈ l ∧ kv.1 ≠ k) := by
  induction l with
  | nil => simp [alInsert]
  | cons hd rest ih =>
    obtain ⟨a, b⟩ := hd
    obtain ⟨x, y⟩ := kv
    simp only [alKeys, List.map_cons, List.nodup_cons] at hnd
    by_cases hk : a = k
    · subst hk
      simp only [alInsert, if_pos, List.mem_cons, Prod.mk.injEq]
      constructor
      · rintro (⟨rfl, rfl⟩ | h)
        · exact Or.inl ⟨rfl, rfl⟩
        · refine Or.inr ⟨Or.inr h, fun hc => hnd.1 ?_⟩
          subst hc
          exact List.mem_map_of_mem Prod.fst h
      · rintro (⟨rfl, rfl⟩ | ⟨(⟨rfl, rfl⟩ | h), hne⟩)
        · exact Or.inl ⟨rfl, rfl⟩
        · exact absurd rfl hne
        · exact Or.inr h
    · simp only [alInsert, if_neg hk, List.mem_cons, ih hnd.2, Prod.mk.injEq]
      constructor
      · rintro (⟨rfl, rfl⟩ | (⟨rfl, rfl⟩ | h))
        · exact Or.inr ⟨Or.inl ⟨rfl, rfl⟩, hk⟩
        · exact Or.inl ⟨rfl, rfl⟩
        · exact Or.inr ⟨Or.inr h.1, h.2⟩
      · rintro (⟨rfl, rfl⟩ | ⟨(⟨rfl, rfl⟩ | h), hne⟩)
        · exact Or.inr (Or.inl ⟨rfl, rfl⟩)
        · exact Or.inl ⟨rfl, rfl⟩
        · exact Or.inr (Or.inr ⟨h, hne⟩)

theorem alKeys_alInsert (l : List (Str × Nat)) (k : Str) (v : Nat) :
    alKeys (alInsert l k v) = if k ∈ alKeys l then alKeys l else alKeys l ++ [k] := by
  induction l with
  | nil => simp [alInsert, alKeys]
  | cons hd rest ih =>
    obtain ⟨a, b⟩ := hd
    by_cases hk : a = k
    · subst hk
      simp [alInsert, alKeys]
    · simp only [alKeys] at ih
      simp only [alInsert, if_neg hk, alKeys, List.map_cons, ih]
      by_cases hmem : k ∈ List.map Prod.fst rest
      · simp [hmem]
      · have hne : ¬ k = a := fun h => hk h.symm
        simp [hmem, hne]

theorem nodup_alKeys_alInsert {l : List (Str × Nat)} (hnd : (alKeys l).Nodup)
    (k : Str) (v : Nat) : (alKeys (alInsert l k v)).Nodup := by
  rw [alKeys_alInsert]
  by_cases hmem : k ∈ alKeys l
  · simpa [hmem] using hnd
  · simp only [hmem, if_false]
    simpa [List.nodup_append] using ⟨hnd, hmem⟩

theorem alErase_sublist (l : List (Str × Nat)) (k : Str) : List.Sublist (alErase l k) l := by
  induction l with
  | nil => simp [alErase]
  | cons hd rest ih =>
    by_cases hk : hd.1 = k
    · simp only [alErase, if_pos hk]
      exact List.sublist_cons_self hd rest
    · simp only [alErase, if_neg hk]
      exact ih.cons₂ hd

theorem nodup_alKeys_alErase {l : List (Str × Nat)} (hnd : (alKeys l).Nodup) (k : Str) :
    (alKeys (alErase l k)).Nodup := hnd.sublist ((alErase_sublist l k).map Prod.fst)

theorem mem_alErase {l : List (Str × Nat)} (hnd : (alKeys l).Nodup)
    {k : Str} {kv : Str × Nat} :
    kv ∈ alErase l k ↔ kv ∈ l ∧ kv.1 ≠ k := by
  induction l with
  | nil => simp [alErase]
  | cons hd rest ih =>
    obtain ⟨a, b⟩ := hd
    obtain ⟨x, y⟩ := kv
    simp only [alKeys, List.map_cons, List.nodup_cons] at hnd
    by_cases hk : a = k
    · subst hk
      simp only [alErase, if_pos, List.mem_cons, Prod.mk.injEq]
      constructor
      · intro h
        refine ⟨Or.inr h, fun hc => hnd.1 ?_⟩
        subst hc
        exact List.mem_map_of_mem Prod.fst h
      · rintro ⟨(⟨rfl, rfl⟩ | h), hne⟩
        · exact absurd rfl hne
        · exact h
    · simp only [alErase, if_neg hk, List.mem_cons, ih hnd.2, Prod.mk.injEq]
      constructor
      · rintro (⟨rfl, rfl⟩ | h)
        · exact ⟨Or.inl ⟨rfl, rfl⟩, hk⟩
        · exact ⟨Or.inr h.1, h.2⟩
      · rintro ⟨(⟨rfl, rfl⟩ | h), hne⟩
        · exact Or.inl ⟨rfl, rfl⟩
        · exact Or.inr ⟨h, hne⟩


def itemIds (l : List Producto) : List Nat := l.map Producto.id

theorem mem_itemsInsert {l : List Producto} (hnd : (itemIds l).Nodup) {q x : Producto} :
    x ∈ itemsInsert l q ↔ x = q ∨ (x ∈ l ∧ x.id ≠ q.id) := by
  induction l with
  | nil => simp [itemsInsert]
  | cons hd rest ih =>
    simp only [itemIds, List.map_cons, List.nodup_cons] at hnd
    by_cases hk : hd.id = q.id
    · simp only [itemsInsert, if_pos hk, List.mem_cons]
      constructor
      · rintro (rfl | h)
        · exact Or.inl rfl
        · refine Or.inr ⟨Or.inr h, fun hc => hnd.1 ?_⟩
          rw [hk, ← hc]
          exact List.mem_map_of_mem Producto.id h
      · rintro (rfl | ⟨(rfl | h), hne⟩)
        · exact Or.inl rfl
        · exact absurd hk hne
        · exact Or.inr h
    · simp only [itemsInsert, if_neg hk, List.mem_cons, ih hnd.2]
      constructor
      · rintro (rfl | (rfl | h))
        · exact Or.inr ⟨Or.inl rfl, hk⟩
        · exact Or.inl rfl
        · exact Or.inr ⟨Or.inr h.1, h.2⟩
      · rintro (rfl | ⟨(rfl | h), hne⟩)
        · exact Or.inr (Or.inl rfl)
        · exact Or.inl rfl
        · exact Or.inr (Or.inr ⟨h, hne⟩)

theorem itemIds_itemsInsert (l : List Producto) (q : Producto) :
    itemIds (itemsInsert l q) =
      if q.id ∈ itemIds l then itemIds l else itemIds l ++ [q.id] := by
  induction l with
  | nil => simp [itemsInsert, itemIds]
  | cons hd rest ih =>
    by_cases hk : hd.id = q.id
    · simp [itemsInsert, hk, itemIds]
    · simp only [itemIds] at ih
      simp only [itemsInsert, if_neg hk, itemIds, List.map_cons, ih]
      by_cases hmem : q.id ∈ List.map Producto.id rest
      · simp [hmem]
      · have hne : ¬ q.id = hd.id := fun h => hk h.symm
        simp [hmem, hne]

theorem nodup_itemIds_itemsInsert {l : List Producto} (hnd : (itemIds l).Nodup)
    (q : Producto) : (itemIds (itemsInsert l q)).Nodup := by
  rw [itemIds_itemsInsert]
  by_cases hmem : q.id ∈ itemIds l
  · simpa [hmem] using hnd
  · simp only [hmem, if_false]
    simpa [List.nodup_append] using ⟨hnd, hmem⟩

theorem itemsErase_sublist (l : List Producto) (i : Nat) :
    List.Sublist (itemsErase l i) l := by
  induction l with
  | nil => simp [itemsErase]
  | cons hd rest ih =>
    by_cases hk : hd.id = i
    · simp only [itemsErase, if_pos hk]
      exact List.sublist_cons_self hd rest
    · simp only [itemsErase, if_neg hk]
      exact ih.cons₂ hd

theorem nodup_itemIds_itemsErase {l : List Producto} (hnd : (itemIds l).Nodup) (i : Nat) :
    (itemIds (itemsErase l i)).Nodup := hnd.sublist ((itemsErase_sublist l i).map Producto.id)

theorem mem_itemsErase {l : List Producto} (hnd : (itemIds l).Nodup) {i : Nat} {x : Producto} :
    x ∈ itemsErase l i ↔ x ∈ l ∧ x.id ≠ i := by
  induction l with
  | nil => simp [itemsErase]
  | cons hd rest ih =>
    simp only [itemIds, List.map_cons, List.nodup_cons] at hnd
    by_cases hk : hd.id = i
    · simp only [itemsErase, if_pos hk, List.mem_cons]
      constructor
      · intro h
        refine ⟨Or.inr h, fun hc => hnd.1 ?_⟩
        rw [hk, ← hc]
        exact List.mem_map_of_mem Producto.id h
      · rintro ⟨(rfl | h), hne⟩
        · exact absurd hk hne
        · exact h
    · simp only [itemsErase, if_neg hk, List.mem_cons, ih hnd.2]
      constructor
      · rintro (rfl | h)
        · exact ⟨Or.inl rfl, hk⟩
        · exact ⟨Or.inr h.1, h.2⟩
      · rintro ⟨(rfl | h), hne⟩
        · exact Or.inl rfl
        · exact Or.inr ⟨h, hne⟩

theorem obtener_eq_some_iff {r : Repo} (hnd : (itemIds r.items).Nodup) {i : Nat} {p : Producto} :
    obtener r i = some p ↔ p ∈ r.items ∧ p.id = i := by
  unfold obtener
  generalize r.items = l at hnd ⊢
  induction l with
  | nil => simp
  | cons hd rest ih =>
    simp only [itemIds, List.map_cons, List.nodup_cons] at hnd
    by_cases hk : hd.id = i
    · rw [List.find?_cons_of_pos _ (by simpa using hk)]
      simp only [Option.some_inj, List.mem_cons]
      constructor
      · rintro rfl
        exact ⟨Or.inl rfl, hk⟩
      · rintro ⟨(rfl | h), hid⟩
        · rfl
        · exact absurd (hk ▸ hid ▸ List.mem_map_of_mem Producto.id h) hnd.1
    · rw [List.find?_cons_of_neg _ (by simpa using hk), ih hnd.2]
      simp only [List.mem_cons]
      constructor
      · rintro ⟨h, rfl⟩
        exact ⟨Or.inr h, rfl⟩
      · rintro ⟨(rfl | h), hid⟩
        · exact absurd hid hk
        · exact ⟨h, hid⟩

theorem obtener_eq_none_iff {r : Repo} {i : Nat} :
    obtener r i = none ↔ ∀ p ∈ r.items, p.id ≠ i := by
  unfold obtener
  rw [List.find?_eq_none]
  simp

theorem id_inj {l : List Producto} (hnd : (itemIds l).Nodup) {p q : Producto}
    (hp : p ∈ l) (hq : q ∈ l) (h : p.id = q.id) : p = q := by
  induction l with
  | nil => cases hp
  | cons hd rest ih =>
    simp only [itemIds, List.map_cons, List.nodup_cons] at hnd
    rw [List.mem_cons] at hp hq
    rcases hp with rfl | hp <;> rcases hq with rfl | hq
    · rfl
    · exact absurd (by rw [h]; exact List.mem_map_of_mem Producto.id hq) hnd.1
    · exact absurd (by rw [← h]; exact List.mem_map_of_mem Producto.id hp) hnd.1
    · exact ih hnd.2 hp hq


/-! ## String lemmas: the collapse step is idempotent -/

theorem splitWsAux_good {s : Str} : ∀ {acc : Str}, (∀ c ∈ acc, pyIsSpace c = false) →
    ∀ t ∈ splitWsAux s acc, t ≠ [] ∧ ∀ c ∈ t, pyIsSpace c = false := by
  induction s with
  | nil =>
    intro acc hacc t ht
    by_cases hne : acc = []
    · simp [splitWsAux, hne] at ht
    · rw [splitWsAux, if_neg hne, List.mem_singleton] at ht
      subst ht
      exact ⟨by simpa using hne, fun c hc => hacc c (List.mem_reverse.mp hc)⟩
  | cons c cs ih =>
    intro acc hacc t ht
    rw [splitWsAux] at ht
    by_cases hsp : pyIsSpace c = true
    · rw [if_pos hsp] at ht
      by_cases hne : acc = []
      · rw [if_pos hne] at ht
        exact ih (by simp) t ht
      · rw [if_neg hne, List.mem_cons] at ht
        rcases ht with rfl | ht
        · exact ⟨by simpa using hne, fun d hd => hacc d (List.mem_reverse.mp hd)⟩
        · exact ih (by simp) t ht
    · rw [if_neg hsp] at ht
      refine ih ?_ t ht
      intro d hd
      rcases List.mem_cons.mp hd with rfl | hd'
      · simpa using hsp
      · exact hacc d hd'

theorem splitWs_good {s : Str} : ∀ t ∈ splitWs s, t ≠ [] ∧ ∀ c ∈ t, pyIsSpace c = false :=
  splitWsAux_good (by simp)

theorem splitWsAux_token {t : Str} (hsp : ∀ c ∈ t, pyIsSpace c = false) :
    ∀ (r acc : Str), splitWsAux (t ++ r) acc = splitWsAux r (t.reverse ++ acc) := by
  induction t with
  | nil => simp
  | cons c cs ih =>
    intro r acc
    have hc : pyIsSpace c = false := hsp c (List.mem_cons_self _ _)
    rw [List.cons_append, splitWsAux, if_neg (by simp [hc]),
      ih (fun d hd => hsp d (List.mem_cons_of_mem _ hd)) r (c :: acc),
      List.reverse_cons, List.append_assoc, List.singleton_append]

theorem splitWs_token_nil {t : Str} (ht : t ≠ []) (hsp : ∀ c ∈ t, pyIsSpace c = false) :
    splitWs t = [t] := by
  have h := splitWsAux_token hsp [] []
  rw [List.append_nil] at h
  unfold splitWs
  rw [h, List.append_nil, splitWsAux, if_neg (by simpa using ht), List.reverse_reverse]

theorem splitWs_token_space {t : Str} (ht : t ≠ []) (hsp : ∀ c ∈ t, pyIsSpace c = false)
    (rest : Str) : splitWs (t ++ ' ' :: rest) = t :: splitWs rest := by
  unfold splitWs
  rw [splitWsAux_token hsp (' ' :: rest) [], List.append_nil, splitWsAux,
    if_pos (by decide), if_neg (by simpa using ht), List.reverse_reverse]

theorem splitWs_joinWs {ts : List Str}
    (h : ∀ t ∈ ts, t ≠ [] ∧ ∀ c ∈ t, pyIsSpace c = false) :
    splitWs (joinWs ts) = ts := by
  induction ts with
  | nil => simp [joinWs, splitWs, splitWsAux]
  | cons t ts ih =>
    cases ts with
    | nil =>
      have ht := h t (List.mem_cons_self _ _)
      exact splitWs_token_nil ht.1 ht.2
    | cons t' ts' =>
      have ht := h t (List.mem_cons_self _ _)
      rw [joinWs, splitWs_token_space ht.1 ht.2,
        ih (fun u hu => h u (List.mem_cons_of_mem _ hu))]

theorem joinWs_head {ts : List Str} (hne : ts ≠ [])
    (h : ∀ t ∈ ts, t ≠ [] ∧ ∀ c ∈ t, pyIsSpace c = false) :
    ∃ c l, joinWs ts = c :: l ∧ pyIsSpace c = false := by
  obtain ⟨t, ts', rfl⟩ := List.exists_cons_of_ne_nil hne
  have ht := h t (List.mem_cons_self _ _)
  obtain ⟨c, cs, rfl⟩ := List.exists_cons_of_ne_nil ht.1
  have hc := ht.2 c (List.mem_cons_self _ _)
  cases ts' with
  | nil => exact ⟨c, cs, rfl, hc⟩
  | cons t' ts'' => exact ⟨c, cs ++ ' ' :: joinWs (t' :: ts''), rfl, hc⟩

theorem joinWs_reverse_head {ts : List Str} (hne : ts ≠ [])
    (h : ∀ t ∈ ts, t ≠ [] ∧ ∀ c ∈ t, pyIsSpace c = false) :
    ∃ c l, (joinWs ts).reverse = c :: l ∧ pyIsSpace c = false := by
  induction ts with
  | nil => exact absurd rfl hne
  | cons t ts' ih =>
    cases ts' with
    | nil =>
      have ht := h t (List.mem_cons_self _ _)
      obtain ⟨c, l, hcl⟩ := List.exists_cons_of_ne_nil
        (by simpa using ht.1 : t.reverse ≠ [])
      refine ⟨c, l, by simpa [joinWs] using hcl, ?_⟩
      have : c ∈ t.reverse := hcl ▸ List.mem_cons_self _ _
      exact ht.2 c (List.mem_reverse.mp this)
    | cons t' ts'' =>
      obtain ⟨c, l, hcl, hc⟩ := ih (by simp) (fun u hu => h u (List.mem_cons_of_mem _ hu))
      refine ⟨c, l ++ [' '] ++ t.reverse, ?_, hc⟩
      rw [joinWs]
      rw [List.reverse_append, List.reverse_cons]
      rw [hcl]
      simp

theorem pyStrip_joinWs {ts : List Str}
    (h : ∀ t ∈ ts, t ≠ [] ∧ ∀ c ∈ t, pyIsSpace c = false) :
    pyStrip (joinWs ts) = joinWs ts := by
  cases hts : ts with
  | nil => simp [joinWs, pyStrip]
  | cons t ts' =>
    subst hts
    obtain ⟨c, l, hcl, hc⟩ := joinWs_head (by simp) h
    obtain ⟨c', l', hcl', hc'⟩ := joinWs_reverse_head (by simp) h
    unfold pyStrip
    rw [hcl, List.dropWhile_cons]
    simp only [hc, Bool.false_eq_true, if_false]
    rw [← hcl, hcl', List.dropWhile_cons]
    simp only [hc', Bool.false_eq_true, if_false]
    rw [← hcl', List.reverse_reverse]

theorem nameOk_length {s : Str} (h : nameOk s = true) : 3 ≤ s.length ∧ s.length ≤ 80 := by
  cases s with
  | nil => simp [nameOk] at h
  | cons c cs =>
    simp only [nameOk, Bool.and_eq_true, decide_eq_true_eq] at h
    simp only [List.length_cons]
    omega

/-- The `nombre` validator is idempotent: re-running `ProductoCreate`
validation on an already-validated name returns it unchanged. -/
theorem validar_nombre_fix {raw n : Str} (h : validar_nombre raw = some n) :
    validar_nombre n = some n := by
  unfold validar_nombre at h
  by_cases h3 : raw.length < 3
  · simp [h3] at h
  · by_cases h80 : 80 < raw.length
    · simp [h3, h80] at h
    · simp only [h3, h80, if_false] at h
      by_cases hok : nameOk (joinWs (splitWs (pyStrip raw))) = true
      · rw [if_pos hok] at h
        cases h
        set ts := splitWs (pyStrip raw) with hts
        have hgood : ∀ t ∈ ts, t ≠ [] ∧ ∀ c ∈ t, pyIsSpace c = false := splitWs_good
        have hlen := nameOk_length hok
        unfold validar_nombre
        rw [if_neg (by omega), if_neg (by omega)]
        rw [pyStrip_joinWs hgood, splitWs_joinWs hgood, if_pos hok]
      · rw [if_neg hok] at h
        cases h


/-! ## Price lemmas: `ROUND_HALF_UP` quantization -/

theorem halfUp_intCast (n : ℤ) : halfUp (n : ℚ) = n := by
  unfold halfUp
  by_cases h : (0 : ℚ) ≤ (n : ℚ)
  · rw [if_pos h, Int.floor_int_add]
    norm_num
  · rw [if_neg h, show (-(n : ℚ) + 1 / 2) = ((-n : ℤ) : ℚ) + 1 / 2 by rw [Int.cast_neg],
      Int.floor_int_add]
    norm_num

theorem quantize2_div_100 (n : ℤ) : quantize2 ((n : ℚ) / 100) = (n : ℚ) / 100 := by
  unfold quantize2
  rw [show (100 : ℚ) * ((n : ℚ) / 100) = (n : ℚ) by ring, halfUp_intCast]

theorem quantize2_fix (v : ℚ) : quantize2 (quantize2 v) = quantize2 v :=
  quantize2_div_100 (halfUp (100 * v))

theorem halfUp_nonpos {x : ℚ} (h : x ≤ 0) : halfUp x ≤ 0 := by
  unfold halfUp
  by_cases h0 : (0 : ℚ) ≤ x
  · rw [if_pos h0]
    have hx : x = 0 := le_antisymm h h0
    subst hx
    norm_num
  · rw [if_neg h0]
    have hplus : (0 : ℚ) ≤ -x + 1 / 2 := by
      push_neg at h0
      linarith
    have := Int.floor_nonneg.mpr hplus
    omega

theorem halfUp_le {x : ℚ} {B : ℤ} (hB : 0 ≤ B) (h : x ≤ (B : ℚ)) : halfUp x ≤ B := by
  unfold halfUp
  by_cases h0 : (0 : ℚ) ≤ x
  · rw [if_pos h0]
    calc ⌊x + 1 / 2⌋ ≤ ⌊(B : ℚ) + 1 / 2⌋ := Int.floor_mono (by linarith)
    _ = B := by rw [Int.floor_int_add]; norm_num
  · rw [if_neg h0]
    push_neg at h0
    have hplus : (0 : ℚ) ≤ -x + 1 / 2 := by linarith
    have := Int.floor_nonneg.mpr hplus
    omega

theorem quantize2_pos_imp {v : ℚ} (h : 0 < quantize2 v) : 0 < v := by
  by_contra hv
  push_neg at hv
  have h100 : (100 : ℚ) * v ≤ 0 := by nlinarith
  have hfl : halfUp (100 * v) ≤ 0 := halfUp_nonpos h100
  unfold quantize2 at h
  have hc : ((halfUp (100 * v) : ℤ) : ℚ) ≤ 0 := by exact_mod_cast hfl
  linarith

theorem quantize2_le_millon {v : ℚ} (h : v ≤ 1000000) : quantize2 v ≤ 1000000 := by
  unfold quantize2
  have h8 : (100 : ℚ) * v ≤ ((100000000 : ℤ) : ℚ) := by push_cast; linarith
  have hle := halfUp_le (by norm_num) h8
  rw [div_le_iff₀ (by norm_num : (0 : ℚ) < 100)]
  calc ((halfUp (100 * v) : ℤ) : ℚ) ≤ ((100000000 : ℤ) : ℚ) := by exact_mod_cast hle
  _ = 1000000 * 100 := by norm_num

/-- Characterization of the price pipeline: a value is accepted exactly
when it is at most 1,000,000 and its half-up quantization is positive,
and the stored value is that quantization. (A non-positive raw value
always quantizes to a non-positive value, so the `gt=0` field constraint
does not change the accepted set.) -/
theorem validar_precio_eq_some_iff {v out : ℚ} :
    validar_precio v = some out ↔ 0 < quantize2 v ∧ v ≤ 1000000 ∧ out = quantize2 v := by
  unfold validar_precio
  by_cases h1 : 0 < v
  · rw [if_neg (not_not_intro h1)]
    by_cases h2 : v ≤ 1000000
    · rw [if_neg (not_not_intro h2)]
      show (if quantize2 v ≤ 0 then none else some (quantize2 v)) = some out ↔ _
      by_cases h3 : quantize2 v ≤ 0
      · rw [if_pos h3]
        constructor
        · rintro ⟨⟩
        · rintro ⟨hq, -, -⟩
          exact absurd hq (not_lt.mpr h3)
      · rw [if_neg h3]
        constructor
        · rintro h
          cases h
          exact ⟨not_le.mp h3, h2, rfl⟩
        · rintro ⟨-, -, rfl⟩
          rfl
    · rw [if_pos h2]
      constructor
      · rintro ⟨⟩
      · rintro ⟨-, h, -⟩
        exact absurd h h2
  · rw [if_pos h1]
    constructor
    · rintro ⟨⟩
    · rintro ⟨hq, -, -⟩
      exact absurd (quantize2_pos_imp hq) h1

/-- The `precio` validator is idempotent on its own output. -/
theorem validar_precio_fix {v q : ℚ} (h : validar_precio v = some q) :
    validar_precio q = some q := by
  rw [validar_precio_eq_some_iff] at h
  obtain ⟨hpos, hle, rfl⟩ := h
  rw [validar_precio_eq_some_iff, quantize2_fix]
  exact ⟨hpos, quantize2_le_millon hle, rfl⟩


/-! ## Category lemmas: normalization, membership, first-occurrence dedup -/

theorem mem_dedupKeepFirst {l : List Str} {x : Str} : x ∈ dedupKeepFirst l ↔ x ∈ l := by
  induction l with
  | nil => simp [dedupKeepFirst]
  | cons a as ih =>
    simp only [dedupKeepFirst, List.mem_cons, List.mem_filter, ih, decide_eq_true_eq]
    constructor
    · rintro (rfl | ⟨h, -⟩)
      · exact Or.inl rfl
      · exact Or.inr h
    · rintro (rfl | h)
      · exact Or.inl rfl
      · by_cases hx : x = a
        · exact Or.inl hx
        · exact Or.inr ⟨h, hx⟩

theorem nodup_dedupKeepFirst (l : List Str) : (dedupKeepFirst l).Nodup := by
  induction l with
  | nil => simp [dedupKeepFirst]
  | cons a as ih =>
    rw [dedupKeepFirst, List.nodup_cons]
    refine ⟨fun hmem => ?_, ih.filter _⟩
    have := (List.mem_filter.mp hmem).2
    simp at this

theorem dedupKeepFirst_of_nodup {l : List Str} (h : l.Nodup) : dedupKeepFirst l = l := by
  induction l with
  | nil => rfl
  | cons a as ih =>
    rw [List.nodup_cons] at h
    rw [dedupKeepFirst, ih h.2, List.filter_eq_self.mpr]
    intro b hb
    simp only [decide_eq_true_eq]
    exact fun hba => h.1 (hba ▸ hb)

theorem length_dedupKeepFirst_le (l : List Str) : (dedupKeepFirst l).length ≤ l.length := by
  induction l with
  | nil => simp [dedupKeepFirst]
  | cons a as ih =>
    rw [dedupKeepFirst, List.length_cons, List.length_cons]
    have := List.length_filter_le (fun b => decide (b ≠ a)) (dedupKeepFirst as)
    omega

theorem filter_dedupKeepFirst (p : Str → Bool) (l : List Str) :
    dedupKeepFirst (l.filter p) = (dedupKeepFirst l).filter p := by
  induction l with
  | nil => simp [dedupKeepFirst]
  | cons a as ih =>
    by_cases hp : p a = true
    · rw [List.filter_cons_of_pos hp, dedupKeepFirst, ih, dedupKeepFirst,
        List.filter_cons_of_pos hp, List.filter_filter, List.filter_filter]
      congr 1
      apply List.filter_congr
      intro b _
      rw [Bool.and_comm]
    · rw [List.filter_cons_of_neg hp, dedupKeepFirst, List.filter_cons_of_neg hp, ih,
        List.filter_filter]
      apply List.filter_congr
      intro b _
      by_cases hpb : p b = true
      · have : (b ≠ a) = True := by
          simp only [eq_iff_iff, iff_true]
          rintro rfl
          exact hp hpb
        simp [hpb, this]
      · simp only [Bool.eq_false_iff, ne_eq] at hpb
        simp [hpb]

theorem validarCatLoop_eq {cs : List Str} (vistos acc : List Str)
    (h : ∀ c ∈ cs, normCat c ∈ CATEGORIAS_PERMITIDAS) :
    validarCatLoop cs vistos acc =
      some (acc.reverse ++
        dedupKeepFirst ((cs.map normCat).filter (fun n => decide (n ∉ vistos)))) := by
  induction cs generalizing vistos acc with
  | nil => simp [validarCatLoop, dedupKeepFirst]
  | cons c cs ih =>
    have hc := h c (List.mem_cons_self _ _)
    have hcne : normCat c ≠ [] := by
      intro hnil
      rw [hnil] at hc
      simp [CATEGORIAS_PERMITIDAS] at hc
    have hcond : ¬ (normCat c = [] ∨ normCat c ∉ CATEGORIAS_PERMITIDAS) := by
      push_neg
      exact ⟨hcne, hc⟩
    rw [validarCatLoop]
    simp only [hcond, if_false]
    by_cases hmem : normCat c ∈ vistos
    · rw [if_pos hmem, ih vistos acc (fun d hd => h d (List.mem_cons_of_mem _ hd))]
      congr 2
      rw [List.map_cons, List.filter_cons_of_neg (by simpa using hmem)]
    · rw [if_neg hmem, ih (normCat c :: vistos) (normCat c :: acc)
        (fun d hd => h d (List.mem_cons_of_mem _ hd))]
      congr 1
      rw [List.map_cons, List.filter_cons_of_pos (by simpa using hmem), dedupKeepFirst,
        List.reverse_cons, List.append_assoc, List.singleton_append]
      congr 2
      have hsplit : ∀ n : Str, (decide (n ∉ normCat c :: vistos)) =
          (decide (n ∉ vistos) && decide (n ≠ normCat c)) := by
        intro n
        by_cases h1 : n ∈ vistos <;> by_cases h2 : n = normCat c <;>
          simp [h1, h2, List.mem_cons]
      calc dedupKeepFirst ((cs.map normCat).filter (fun n => decide (n ∉ normCat c :: vistos)))
          = dedupKeepFirst (((cs.map normCat).filter (fun n => decide (n ∉ vistos))).filter
              (fun n => decide (n ≠ normCat c))) := by
            rw [List.filter_filter]
            congr 1
            apply List.filter_congr
            intro b _
            rw [hsplit b, Bool.and_comm]
        _ = (dedupKeepFirst ((cs.map normCat).filter (fun n => decide (n ∉ vistos)))).filter
              (fun n => decide (n ≠ normCat c)) := by
            rw [filter_dedupKeepFirst]

theorem validarCatLoop_none {cs : List Str} (vistos acc : List Str)
    (h : ∃ c ∈ cs, normCat c ∉ CATEGORIAS_PERMITIDAS) :
    validarCatLoop cs vistos acc = none := by
  induction cs generalizing vistos acc with
  | nil => simp at h
  | cons c cs ih =>
    rw [validarCatLoop]
    by_cases hcond : normCat c = [] ∨ normCat c ∉ CATEGORIAS_PERMITIDAS
    · rw [if_pos hcond]
    · rw [if_neg hcond]
      push_neg at hcond
      obtain ⟨d, hd, hdbad⟩ := h
      rcases List.mem_cons.mp hd with rfl | hd'
      · exact absurd hcond.2 (by simpa using hdbad)
      · by_cases hmem : normCat c ∈ vistos
        · rw [if_pos hmem]
          exact ih _ _ ⟨d, hd', hdbad⟩
        · rw [if_neg hmem]
          exact ih _ _ ⟨d, hd', hdbad⟩

theorem validar_categorias_eq_some_iff {l out : List Str} :
    validar_categorias l = some out ↔
      1 ≤ l.length ∧ l.length ≤ 10 ∧ (∀ c ∈ l, normCat c ∈ CATEGORIAS_PERMITIDAS) ∧
        out = dedupKeepFirst (l.map normCat) := by
  unfold validar_categorias
  by_cases h1 : l.length < 1
  · simp only [h1, if_true]
    constructor
    · rintro ⟨⟩
    · rintro ⟨h, -⟩
      omega
  · rw [if_neg h1]
    by_cases h2 : 10 < l.length
    · rw [if_pos h2]
      constructor
      · rintro ⟨⟩
      · rintro ⟨-, h, -⟩
        omega
    · rw [if_neg h2]
      by_cases hall : ∀ c ∈ l, normCat c ∈ CATEGORIAS_PERMITIDAS
      · rw [validarCatLoop_eq [] [] hall]
        simp only [List.reverse_nil, List.nil_append, Option.some_inj]
        have : (l.map normCat).filter (fun n => decide (n ∉ ([] : List Str))) = l.map normCat := by
          apply List.filter_eq_self.mpr
          intro b _
          simp
        rw [this]
        constructor
        · rintro rfl
          exact ⟨by omega, by omega, hall, rfl⟩
        · rintro ⟨-, -, -, rfl⟩
          rfl
      · rw [validarCatLoop_none [] []]
        · constructor
          · rintro ⟨⟩
          · rintro ⟨-, -, hall', -⟩
            exact absurd hall' hall
        · push_neg at hall
          obtain ⟨c, hc, hbad⟩ := hall
          exact ⟨c, hc, hbad⟩

/-- Every entry of the allowed-category set is a fixpoint of the entry
normalizer. -/
theorem normCat_allowed : ∀ a ∈ CATEGORIAS_PERMITIDAS, normCat a = a := by decide

/-- The `categorias` validator is idempotent on its own output. -/
theorem validar_categorias_fix {l out : List Str}
    (h : validar_categorias l = some out) : validar_categorias out = some out := by
  rw [validar_categorias_eq_some_iff] at h
  obtain ⟨h1, h2, hall, rfl⟩ := h
  have hmemout : ∀ c ∈ dedupKeepFirst (l.map normCat), c ∈ CATEGORIAS_PERMITIDAS := by
    intro c hc
    obtain ⟨d, hd, rfl⟩ := List.mem_map.mp (mem_dedupKeepFirst.mp hc)
    exact hall d hd
  rw [validar_categorias_eq_some_iff]
  refine ⟨?_, ?_, ?_, ?_⟩
  · obtain ⟨c, cs, hl⟩ := List.exists_cons_of_ne_nil (List.length_pos.mp (by omega) : l ≠ [])
    subst hl
    simp [dedupKeepFirst]
  · calc (dedupKeepFirst (l.map normCat)).length ≤ (l.map normCat).length :=
        length_dedupKeepFirst_le _
    _ = l.length := List.length_map _ _
    _ ≤ 10 := by omega
  · intro c hc
    rw [normCat_allowed c (hmemout c hc)]
    exact hmemout c hc
  · rw [show (dedupKeepFirst (l.map normCat)).map normCat = dedupKeepFirst (l.map normCat) by
      apply List.map_congr_left ?_ |>.trans (List.map_id _)
      intro c hc
      exact normCat_allowed c (hmemout c hc)]
    rw [dedupKeepFirst_of_nodup (nodup_dedupKeepFirst _)]


/-! ## The repository invariant

`WF r`: ids and index keys are duplicate-free, the name index is exactly
the map `lower(nombre) ↦ id` over the live products, and every stored
field is a fixpoint of its validator. -/

/-- The stored fields are validator fixpoints. -/
def CanonPC (pc : ProductoCreate) : Prop :=
  validar_nombre pc.nombre = some pc.nombre ∧
  validar_precio pc.precio = some pc.precio ∧
  validar_categorias pc.categorias = some pc.categorias

/-- Canonicity of a stored product. -/
def Canon (p : Producto) : Prop :=
  validar_nombre p.nombre = some p.nombre ∧
  validar_precio p.precio = some p.precio ∧
  validar_categorias p.categorias = some p.categorias

/-- Well-formedness of a repository state. -/
def WF (r : Repo) : Prop :=
  (itemIds r.items).Nodup ∧
  (alKeys r.nameToId).Nodup ∧
  (∀ p ∈ r.items, (norm_name p.nombre, p.id) ∈ r.nameToId) ∧
  (∀ kv ∈ r.nameToId, ∃ p, p ∈ r.items ∧ norm_name p.nombre = kv.1 ∧ p.id = kv.2) ∧
  (∀ p ∈ r.items, Canon p)

theorem WF_vacio : WF Repo.vacio := by
  refine ⟨?_, ?_, ?_, ?_, ?_⟩ <;> simp [Repo.vacio, itemIds, alKeys]

/-- A validated payload has canonical fields (each validator is
idempotent). -/
theorem mkProductoCreate_fix {n : Str} {p : ℚ} {c : List Str} {pc : ProductoCreate}
    (h : mkProductoCreate n p c = some pc) : CanonPC pc := by
  unfold mkProductoCreate at h
  cases hn : validar_nombre n with
  | none => rw [hn] at h; cases h
  | some a =>
    cases hp : validar_precio p with
    | none => rw [hn, hp] at h; cases h
    | some b =>
      cases hc : validar_categorias c with
      | none => rw [hn, hp, hc] at h; cases h
      | some d =>
        rw [hn, hp, hc] at h
        cases h
        exact ⟨validar_nombre_fix hn, validar_precio_fix hp, validar_categorias_fix hc⟩

theorem existe_nombre_none_eq_false {r : Repo} {nn : Str} :
    existe_nombre r nn none = false ↔ alGet r.nameToId nn = none := by
  unfold existe_nombre
  cases h : alGet r.nameToId nn <;> simp

theorem existe_nombre_some_eq_false {r : Repo} {nn : Str} {e : Nat} :
    existe_nombre r nn (some e) = false ↔
      alGet r.nameToId nn = none ∨ alGet r.nameToId nn = some e := by
  unfold existe_nombre
  cases h : alGet r.nameToId nn <;> simp

theorem crear_producto_ok {r : Repo} {pc : ProductoCreate} {newId : Nat}
    {r' : Repo} {out : Producto} (h : crear_producto r pc newId = .ok (r', out)) :
    existe_nombre r (pyLower pc.nombre) none = false ∧ (r', out) = crear r pc newId := by
  unfold crear_producto at h
  by_cases hex : existe_nombre r (pyLower pc.nombre) none = true
  · rw [if_pos hex] at h
    cases h
  · rw [if_neg hex] at h
    injection h with h'
    exact ⟨Bool.eq_false_iff.mpr hex, h'.symm⟩

theorem WF_crear_producto {r : Repo} {pc : ProductoCreate} {newId : Nat}
    {r' : Repo} {out : Producto} (hwf : WF r) (hcanon : CanonPC pc)
    (hfresh : ∀ p ∈ r.items, p.id ≠ newId)
    (h : crear_producto r pc newId = .ok (r', out)) : WF r' := by
  obtain ⟨hndI, hndK, hfwd, hbwd, hcan⟩ := hwf
  obtain ⟨hex, hro⟩ := crear_producto_ok h
  rw [existe_nombre_none_eq_false] at hex
  obtain ⟨hr', hout⟩ := Prod.mk.injEq .. ▸ hro
  subst hr'
  set item : Producto := ⟨newId, pc.nombre, pc.precio, pc.categorias⟩ with hitem
  set key : Str := norm_name pc.nombre with hkey
  have hkeyP : pyLower pc.nombre = key := rfl
  rw [hkeyP] at hex
  refine ⟨?_, ?_, ?_, ?_, ?_⟩
  · exact nodup_itemIds_itemsInsert hndI item
  · exact nodup_alKeys_alInsert hndK key newId
  · intro p hp
    rcases (mem_itemsInsert hndI).mp hp with rfl | ⟨hpold, hpid⟩
    · exact (mem_alInsert hndK).mpr (Or.inl rfl)
    · refine (mem_alInsert hndK).mpr (Or.inr ⟨hfwd p hpold, ?_⟩)
      intro hcontra
      have : (key, p.id) ∈ r.nameToId := by
        have := hfwd p hpold
        rwa [show (norm_name p.nombre : Str) = key from hcontra] at this
      rw [(alGet_eq_some_iff hndK).mpr this] at hex
      cases hex
  · intro kv hkv
    rcases (mem_alInsert hndK).mp hkv with rfl | ⟨hkvold, hkvne⟩
    · exact ⟨item, (mem_itemsInsert hndI).mpr (Or.inl rfl), rfl, rfl⟩
    · obtain ⟨p, hpmem, hpn, hpid⟩ := hbwd kv hkvold
      exact ⟨p, (mem_itemsInsert hndI).mpr (Or.inr ⟨hpmem, hfresh p hpmem⟩), hpn, hpid⟩
  · intro p hp
    rcases (mem_itemsInsert hndI).mp hp with rfl | ⟨hpold, -⟩
    · exact hcanon
    · exact hcan p hpold


theorem actualizar_full_ok {r : Repo} {id_ : Nat} {pc : ProductoCreate}
    {r' : Repo} {out : Producto} (h : actualizar_full r id_ pc = .ok (r', out)) :
    ∃ actual, obtener r id_ = some actual ∧
      existe_nombre r (norm_name pc.nombre) (some id_) = false ∧
      (r', out) = (⟨itemsInsert r.items ⟨id_, pc.nombre, pc.precio, pc.categorias⟩,
          alInsert (alErase r.nameToId (norm_name actual.nombre)) (norm_name pc.nombre) id_⟩,
        ⟨id_, pc.nombre, pc.precio, pc.categorias⟩) := by
  unfold actualizar_full at h
  cases hobt : obtener r id_ with
  | none => rw [hobt] at h; exact absurd h (by simp)
  | some actual =>
    rw [hobt] at h
    dsimp only at h
    by_cases hex : existe_nombre r (norm_name pc.nombre) (some id_) = true
    · rw [if_pos hex] at h
      cases h
    · rw [if_neg hex] at h
      injection h with h'
      exact ⟨actual, rfl, Bool.eq_false_iff.mpr hex, h'.symm⟩

theorem WF_actualizar_full {r : Repo} {id_ : Nat} {pc : ProductoCreate}
    {r' : Repo} {out : Producto} (hwf : WF r) (hcanon : CanonPC pc)
    (h : actualizar_full r id_ pc = .ok (r', out)) : WF r' ∧ out.id = id_ := by
  obtain ⟨actual, hobt, hex, hro⟩ := actualizar_full_ok h
  obtain ⟨hndI, hndK, hfwd, hbwd, hcan⟩ := hwf
  obtain ⟨hactmem, hactid⟩ := (obtener_eq_some_iff hndI).mp hobt
  obtain ⟨hr', hout⟩ := Prod.mk.injEq .. ▸ hro
  set nuevo : Producto := ⟨id_, pc.nombre, pc.precio, pc.categorias⟩ with hnuevo
  set nn : Str := norm_name pc.nombre with hnn
  set oldkey : Str := norm_name actual.nombre with holdkey
  have hGetOld : alGet r.nameToId oldkey = some id_ := by
    refine (alGet_eq_some_iff hndK).mpr ?_
    rw [← hactid]
    exact hfwd actual hactmem
  rw [existe_nombre_some_eq_false] at hex
  have hndK1 : (alKeys (alErase r.nameToId oldkey)).Nodup := nodup_alKeys_alErase hndK oldkey
  have hnnCase : alGet r.nameToId nn = none ∨ nn = oldkey := by
    rcases hex with hnone | hsome
    · exact Or.inl hnone
    · right
      obtain ⟨p, hpmem, hpn, hpid⟩ := hbwd (nn, id_) ((alGet_eq_some_iff hndK).mp hsome)
      simp only at hpn hpid
      have hpa : p = actual := id_inj hndI hpmem hactmem (by rw [hpid, hactid])
      rw [← hpn, hpa]
  have hmemIdx' : ∀ kv, kv ∈ alInsert (alErase r.nameToId oldkey) nn id_ ↔
      kv = (nn, id_) ∨ (kv ∈ r.nameToId ∧ kv.1 ≠ oldkey ∧ kv.1 ≠ nn) := by
    intro kv
    rw [mem_alInsert hndK1, mem_alErase hndK]
    constructor
    · rintro (rfl | ⟨⟨hmem, hne1⟩, hne2⟩)
      · exact Or.inl rfl
      · exact Or.inr ⟨hmem, hne1, hne2⟩
    · rintro (rfl | ⟨hmem, hne1, hne2⟩)
      · exact Or.inl rfl
      · exact Or.inr ⟨⟨hmem, hne1⟩, hne2⟩
  have hkeyne : ∀ x ∈ r.items, x.id ≠ id_ → norm_name x.nombre ≠ oldkey ∧ norm_name x.nombre ≠ nn := by
    intro x hx hxid
    have hentry := hfwd x hx
    constructor
    · intro hcontra
      have : alGet r.nameToId oldkey = some x.id :=
        (alGet_eq_some_iff hndK).mpr (hcontra ▸ hentry)
      rw [hGetOld] at this
      exact hxid (Option.some_inj.mp this).symm
    · intro hcontra
      rcases hnnCase with hnone | heq
      · have : alGet r.nameToId nn = some x.id :=
          (alGet_eq_some_iff hndK).mpr (hcontra ▸ hentry)
        rw [hnone] at this
        cases this
      · have : alGet r.nameToId oldkey = some x.id :=
          (alGet_eq_some_iff hndK).mpr ((heq ▸ hcontra) ▸ hentry)
        rw [hGetOld] at this
        exact hxid (Option.some_inj.mp this).symm
  subst hr'
  refine ⟨⟨?_, ?_, ?_, ?_, ?_⟩, by rw [hout]⟩
  · exact nodup_itemIds_itemsInsert hndI nuevo
  · exact nodup_alKeys_alInsert hndK1 nn id_
  · intro p hp
    rcases (mem_itemsInsert hndI).mp hp with rfl | ⟨hpold, hpid⟩
    · exact (hmemIdx' _).mpr (Or.inl rfl)
    · exact (hmemIdx' _).mpr (Or.inr ⟨hfwd p hpold, hkeyne p hpold hpid⟩)
  · intro kv hkv
    rcases (hmemIdx' kv).mp hkv with rfl | ⟨hkvold, hne1, hne2⟩
    · exact ⟨nuevo, (mem_itemsInsert hndI).mpr (Or.inl rfl), rfl, rfl⟩
    · obtain ⟨p, hpmem, hpn, hpid⟩ := hbwd kv hkvold
      have hpne : p.id ≠ id_ := by
        intro hcontra
        have hpa : p = actual := id_inj hndI hpmem hactmem (by rw [hcontra, hactid])
        exact hne1 (by rw [← hpn, hpa])
      exact ⟨p, (mem_itemsInsert hndI).mpr (Or.inr ⟨hpmem, hpne⟩), hpn, hpid⟩
  · intro p hp
    rcases (mem_itemsInsert hndI).mp hp with rfl | ⟨hpold, -⟩
    · exact hcanon
    · exact hcan p hpold

theorem actualizar_parcial_ok {r : Repo} {id_ : Nat} {pu : ProductoUpdate}
    {r' : Repo} {out : Producto} (h : actualizar_parcial r id_ pu = .ok (r', out)) :
    ∃ actual cand, obtener r id_ = some actual ∧
      mkProductoCreate (pu.nombre.getD actual.nombre) (pu.precio.getD actual.precio)
        (pu.categorias.getD actual.categorias) = some cand ∧
      actualizar_full r id_ cand = .ok (r', out) := by
  unfold actualizar_parcial at h
  cases hobt : obtener r id_ with
  | none => rw [hobt] at h; exact absurd h (by simp)
  | some actual =>
    rw [hobt] at h
    dsimp only at h
    cases hmk : mkProductoCreate (pu.nombre.getD actual.nombre) (pu.precio.getD actual.precio)
        (pu.categorias.getD actual.categorias) with
    | none => rw [hmk] at h; exact absurd h (by simp)
    | some cand =>
      rw [hmk] at h
      dsimp only at h
      by_cases hdup : pyLower cand.nombre ≠ pyLower actual.nombre ∧
          existe_nombre r (norm_name cand.nombre) none = true
      · rw [if_pos hdup] at h
        cases h
      · rw [if_neg hdup] at h
        exact ⟨actual, cand, rfl, hmk, h⟩

theorem actualizar_parcial_producto_ok {r : Repo} {id_ : Nat} {pu : ProductoUpdate}
    {r' : Repo} {out : Producto} (h : actualizar_parcial_producto r id_ pu = .ok (r', out)) :
    actualizar_parcial r id_ pu = .ok (r', out) := by
  unfold actualizar_parcial_producto at h
  by_cases hempty : pu.nombre = none ∧ pu.precio = none ∧ pu.categorias = none
  · rw [if_pos hempty] at h
    cases h
  · rwa [if_neg hempty] at h

theorem WF_actualizar_parcial {r : Repo} {id_ : Nat} {pu : ProductoUpdate}
    {r' : Repo} {out : Producto} (hwf : WF r)
    (h : actualizar_parcial r id_ pu = .ok (r', out)) : WF r' ∧ out.id = id_ := by
  obtain ⟨actual, cand, hobt, hmk, hfull⟩ := actualizar_parcial_ok h
  exact WF_actualizar_full hwf (mkProductoCreate_fix hmk) hfull

theorem borrar_ok {r : Repo} {id_ : Nat} {r' : Repo} (h : borrar r id_ = .ok r') :
    ∃ actual, obtener r id_ = some actual ∧
      r' = ⟨itemsErase r.items id_,
        if alGet r.nameToId (norm_name actual.nombre) = some id_
        then alErase r.nameToId (norm_name actual.nombre) else r.nameToId⟩ := by
  unfold borrar at h
  cases hobt : obtener r id_ with
  | none => rw [hobt] at h; exact absurd h (by simp)
  | some actual =>
    rw [hobt] at h
    dsimp only at h
    injection h with h'
    exact ⟨actual, rfl, h'.symm⟩

theorem WF_borrar {r : Repo} {id_ : Nat} {r' : Repo} (hwf : WF r)
    (h : borrar r id_ = .ok r') : WF r' := by
  obtain ⟨actual, hobt, hr'⟩ := borrar_ok h
  obtain ⟨hndI, hndK, hfwd, hbwd, hcan⟩ := hwf
  obtain ⟨hactmem, hactid⟩ := (obtener_eq_some_iff hndI).mp hobt
  set oldkey : Str := norm_name actual.nombre with holdkey
  have hGetOld : alGet r.nameToId oldkey = some id_ := by
    refine (alGet_eq_some_iff hndK).mpr ?_
    rw [← hactid]
    exact hfwd actual hactmem
  rw [if_pos hGetOld] at hr'
  subst hr'
  refine ⟨?_, ?_, ?_, ?_, ?_⟩
  · exact nodup_itemIds_itemsErase hndI id_
  · exact nodup_alKeys_alErase hndK oldkey
  · intro p hp
    obtain ⟨hpold, hpid⟩ := (mem_itemsErase hndI).mp hp
    refine (mem_alErase hndK).mpr ⟨hfwd p hpold, ?_⟩
    intro hcontra
    have : alGet r.nameToId oldkey = some p.id :=
      (alGet_eq_some_iff hndK).mpr (hcontra ▸ hfwd p hpold)
    rw [hGetOld] at this
    exact hpid (Option.some_inj.mp this).symm
  · intro kv hkv
    obtain ⟨hkvold, hkvne⟩ := (mem_alErase hndK).mp hkv
    obtain ⟨p, hpmem, hpn, hpid⟩ := hbwd kv hkvold
    have hpne : p.id ≠ id_ := by
      intro hcontra
      have hpa : p = actual := id_inj hndI hpmem hactmem (by rw [hcontra, hactid])
      exact hkvne (by rw [← hpn, hpa])
    exact ⟨p, (mem_itemsErase hndI).mpr ⟨hpmem, hpne⟩, hpn, hpid⟩
  · intro p hp
    exact hcan p ((mem_itemsErase hndI).mp hp).1

/-- Every state reachable through the public endpoints is well-formed. -/
theorem Reachable_WF {r : Repo} (h : Reachable r) : WF r := by
  induction h with
  | empty => exact WF_vacio
  | create hr hmk hfresh hok ih =>
    exact WF_crear_producto ih (mkProductoCreate_fix hmk) hfresh hok
  | replace hr hmk hok ih =>
    exact (WF_actualizar_full ih (mkProductoCreate_fix hmk) hok).1
  | patch hr hmk hok ih =>
    exact (WF_actualizar_parcial ih (actualizar_parcial_producto_ok hok)).1
  | delete hr hok ih =>
    exact WF_borrar ih hok


/-! ## The list filter pipeline as a single predicate -/

/-- A product survives all four optional filters of `listar`. -/
def sobrevive (q categoria : Option Str) (minPrecio maxPrecio : Option ℚ) (p : Producto) : Bool :=
  (match q with
   | none => true
   | some qs =>
     if qs = [] then true
     else decide (strip_accents (pyLower (pyStrip qs)) <:+: strip_accents (pyLower p.nombre))) &&
  (match categoria with
   | none => true
   | some cs =>
     if cs = [] then true
     else p.categorias.contains (strip_accents (pyLower (pyStrip cs)))) &&
  (match minPrecio with
   | none => true
   | some m => decide (m ≤ p.precio)) &&
  (match maxPrecio with
   | none => true
   | some m => decide (p.precio ≤ m))

theorem filtrar_eq_filter (items : List Producto) (q categoria : Option Str)
    (minPrecio maxPrecio : Option ℚ) :
    filtrar items q categoria minPrecio maxPrecio =
      items.filter (sobrevive q categoria minPrecio maxPrecio) := by
  unfold filtrar
  dsimp only
  have step1 : (match q with
      | none => items
      | some qs =>
        if qs = [] then items
        else items.filter
          (fun p => decide (strip_accents (pyLower (pyStrip qs)) <:+: strip_accents (pyLower p.nombre)))) =
      items.filter (fun p => match q with
        | none => true
        | some qs =>
          if qs = [] then true
          else decide (strip_accents (pyLower (pyStrip qs)) <:+: strip_accents (pyLower p.nombre))) := by
    rcases q with _ | qs
    · simp
    · by_cases h : qs = [] <;> simp [h]
  rw [step1]
  set l1 := items.filter (fun p => match q with
    | none => true
    | some qs =>
      if qs = [] then true
      else decide (strip_accents (pyLower (pyStrip qs)) <:+: strip_accents (pyLower p.nombre))) with hl1
  have step2 : (match categoria with
      | none => l1
      | some cs =>
        if cs = [] then l1
        else l1.filter (fun p => p.categorias.contains (strip_accents (pyLower (pyStrip cs))))) =
      l1.filter (fun p => match categoria with
        | none => true
        | some cs =>
          if cs = [] then true
          else p.categorias.contains (strip_accents (pyLower (pyStrip cs)))) := by
    rcases categoria with _ | cs
    · simp
    · by_cases h : cs = [] <;> simp [h]
  rw [step2]
  have step3 : ∀ (l : List Producto), (match minPrecio with
      | none => l
      | some m => l.filter (fun p => decide (m ≤ p.precio))) =
      l.filter (fun p => match minPrecio with
        | none => true
        | some m => decide (m ≤ p.precio)) := by
    intro l
    rcases minPrecio with _ | m <;> simp
  rw [step3]
  have step4 : ∀ (l : List Producto), (match maxPrecio with
      | none => l
      | some m => l.filter (fun p => decide (p.precio ≤ m))) =
      l.filter (fun p => match maxPrecio with
        | none => true
        | some m => decide (p.precio ≤ m)) := by
    intro l
    rcases maxPrecio with _ | m <;> simp
  rw [step4, hl1, List.filter_filter, List.filter_filter, List.filter_filter]
  apply List.filter_congr
  intro x _
  unfold sobrevive
  generalize (match q with
    | none => true
    | some qs =>
      if qs = [] then true
      else decide (strip_accents (pyLower (pyStrip qs)) <:+: strip_accents (pyLower x.nombre))) = a
  generalize (match categoria with
    | none => true
    | some cs =>
      if cs = [] then true
      else x.categorias.contains (strip_accents (pyLower (pyStrip cs)))) = b
  generalize (match minPrecio with
    | none => true
    | some m => decide (m ≤ x.precio)) = c
  generalize (match maxPrecio with
    | none => true
    | some m => decide (x.precio ≤ m)) = d
  cases a <;> cases b <;> cases c <;> cases d <;> rfl


/-! ## Helpers for concrete scenarios -/

theorem quantize2_of_cast (n : ℤ) {v : ℚ} (hv : 100 * v = (n : ℚ)) :
    quantize2 v = (n : ℚ) / 100 := by
  unfold quantize2
  rw [hv, halfUp_intCast]

theorem validar_precio_cast (n : ℤ) {v : ℚ} (hv : 100 * v = (n : ℚ))
    (h1 : 0 < n) (h2 : n ≤ 100000000) : validar_precio v = some v := by
  have hq : quantize2 v = (n : ℚ) / 100 := quantize2_of_cast n hv
  have hv' : v = (n : ℚ) / 100 := by
    field_simp
    linarith
  have hn0 : (0 : ℚ) < (n : ℚ) := by exact_mod_cast h1
  rw [validar_precio_eq_some_iff]
  refine ⟨?_, ?_, ?_⟩
  · rw [hq]
    positivity
  · rw [hv', div_le_iff₀ (by norm_num : (0 : ℚ) < 100)]
    have : (n : ℚ) ≤ 100000000 := by exact_mod_cast h2
    linarith
  · rw [hq]
    exact hv'

/-- A one-product repository reached by a single successful create. -/
def panProd : Producto := ⟨1, "Pan".toList, 10, ["grano".toList]⟩

/-- The corresponding repository state. -/
def repoPan : Repo := ⟨[panProd], [("pan".toList, 1)]⟩

/-- The validated payload that creates `panProd`. -/
def pcPan : ProductoCreate := ⟨"Pan".toList, 10, ["grano".toList]⟩

theorem validar_precio_10 : validar_precio (10 : ℚ) = some 10 :=
  validar_precio_cast 1000 (by norm_num) (by norm_num) (by norm_num)

theorem mk_pcPan : mkProductoCreate "Pan".toList 10 ["grano".toList] = some pcPan := by
  unfold mkProductoCreate
  rw [show validar_nombre "Pan".toList = some "Pan".toList from by decide, validar_precio_10,
    show validar_categorias ["grano".toList] = some ["grano".toList] from by decide]
  rfl

theorem Reachable_repoPan : Reachable repoPan := by
  have hcp : crear_producto Repo.vacio pcPan 1 = .ok (repoPan, panProd) := rfl
  have hfresh : ∀ p ∈ Repo.vacio.items, p.id ≠ 1 := by
    intro p hp
    simp [Repo.vacio] at hp
  exact Reachable.create Reachable.empty mk_pcPan hfresh hcp


/-! ## Claim theorems -/

/-- C7: for every repository state and filter arguments with
`limit ∈ [1, 100]` and `offset ≥ 0` (offsets are naturals here), `listar`
returns a pair `(items, total)` where `total` is the number of products
surviving all four filters — computed before pagination and therefore
independent of `limit` and `offset` — and `items` is exactly the slice
`[offset, offset + limit)` of the filtered sequence in its original
order, so `items.length ≤ limit`. -/
theorem listar_pagina_y_total {r : Repo} (q categoria : Option Str)
    (minPrecio maxPrecio : Option ℚ) {limit offset : Nat}
    (h1 : 1 ≤ limit) (h2 : limit ≤ 100) :
    (listar r q categoria minPrecio maxPrecio limit offset).2 =
        (r.items.filter (sobrevive q categoria minPrecio maxPrecio)).length ∧
    (listar r q categoria minPrecio maxPrecio limit offset).1 =
        ((r.items.filter (sobrevive q categoria minPrecio maxPrecio)).drop offset).take limit ∧
    (listar r q categoria minPrecio maxPrecio limit offset).1.length ≤ limit ∧
    (∀ limit₂ offset₂ : Nat, (listar r q categoria minPrecio maxPrecio limit₂ offset₂).2 =
        (listar r q categoria minPrecio maxPrecio limit offset).2) := by
  have hkey : ∀ l₂ o₂ : Nat, listar r q categoria minPrecio maxPrecio l₂ o₂ =
      (((r.items.filter (sobrevive q categoria minPrecio maxPrecio)).drop o₂).take l₂,
        (r.items.filter (sobrevive q categoria minPrecio maxPrecio)).length) := by
    intro l₂ o₂
    unfold listar
    rw [filtrar_eq_filter]
  refine ⟨by rw [hkey], by rw [hkey], ?_, fun l₂ o₂ => by rw [hkey, hkey]⟩
  rw [hkey]
  simp only [List.length_take]
  omega

/-- Witness for C7 at a concrete state and concrete pagination arguments. -/
theorem listar_pagina_y_total_witness :
    (1 : Nat) ≤ 10 ∧ (10 : Nat) ≤ 100 ∧
    ((listar repoPan none none none none 10 0).2 =
        (repoPan.items.filter (sobrevive none none none none)).length ∧
      (listar repoPan none none none none 10 0).1 =
        ((repoPan.items.filter (sobrevive none none none none)).drop 0).take 10 ∧
      (listar repoPan none none none none 10 0).1.length ≤ 10 ∧
      (∀ limit₂ offset₂ : Nat, (listar repoPan none none none none limit₂ offset₂).2 =
        (listar repoPan none none none none 10 0).2)) :=
  ⟨by decide, by decide,
    listar_pagina_y_total none none none none (by decide) (by decide)⟩

/-- C1: in every state reachable from the empty repository through the
public endpoints, at most one live product carries a given case-folded
name: two stored products with the same lower-cased name are equal. -/
theorem unicidad_nombre_plegado {r : Repo} (hr : Reachable r) {p q : Producto}
    (hp : p ∈ r.items) (hq : q ∈ r.items)
    (hname : pyLower p.nombre = pyLower q.nombre) : p = q := by
  obtain ⟨hndI, hndK, hfwd, -, -⟩ := Reachable_WF hr
  have h1 : alGet r.nameToId (norm_name p.nombre) = some p.id :=
    (alGet_eq_some_iff hndK).mpr (hfwd p hp)
  have h2 : alGet r.nameToId (norm_name q.nombre) = some q.id :=
    (alGet_eq_some_iff hndK).mpr (hfwd q hq)
  have hkey : norm_name p.nombre = norm_name q.nombre := hname
  rw [hkey, h2] at h1
  exact id_inj hndI hp hq (Option.some_inj.mp h1).symm

/-- Witness for C1 at a concrete reachable state. -/
theorem unicidad_nombre_plegado_witness :
    Reachable repoPan ∧ panProd ∈ repoPan.items ∧
    pyLower panProd.nombre = pyLower panProd.nombre ∧ panProd = panProd :=
  ⟨Reachable_repoPan, List.mem_singleton.mpr rfl, rfl,
    unicidad_nombre_plegado Reachable_repoPan (List.mem_singleton.mpr rfl)
      (List.mem_singleton.mpr rfl) rfl⟩

/-- C10: in every reachable state the name index is exactly the map
sending the lower-cased name of each stored product to that product's
id, with duplicate-free keys (so each live product has exactly one
entry). -/
theorem indice_nombres_exacto {r : Repo} (hr : Reachable r) :
    (∀ kv : Str × Nat, kv ∈ r.nameToId ↔ ∃ p, p ∈ r.items ∧ kv = (pyLower p.nombre, p.id)) ∧
    (r.nameToId.map Prod.fst).Nodup := by
  obtain ⟨hndI, hndK, hfwd, hbwd, -⟩ := Reachable_WF hr
  refine ⟨fun kv => ⟨fun hkv => ?_, fun hex => ?_⟩, hndK⟩
  · obtain ⟨p, hp, hpn, hpid⟩ := hbwd kv hkv
    exact ⟨p, hp, Prod.ext_iff.mpr ⟨hpn.symm, hpid.symm⟩⟩
  · obtain ⟨p, hp, hkveq⟩ := hex
    subst hkveq
    exact hfwd p hp

/-- Witness for C10 at a concrete reachable state and index entry. -/
theorem indice_nombres_exacto_witness :
    Reachable repoPan ∧
    (("pan".toList, 1) ∈ repoPan.nameToId ↔
      ∃ p, p ∈ repoPan.items ∧ ("pan".toList, 1) = (pyLower p.nombre, p.id)) :=
  ⟨Reachable_repoPan, (indice_nombres_exacto Reachable_repoPan).1 ("pan".toList, 1)⟩


/-- The raw string of the C2 counterexample: a leading space followed by
eighty `a`s (81 characters in total). -/
def raw81 : Str := ' ' :: List.replicate 80 'a'

/-- C2, counterexample: the claim states that every raw string whose
collapsed form satisfies the name rules is accepted, but this raw string
collapses to a valid 80-character name and is still rejected — the
declared `min_length=3, max_length=80` field constraint runs on the raw
string before the whitespace-collapsing validator. -/
theorem validar_nombre_contraejemplo :
    nameOk (collapseWs raw81) = true ∧
    3 ≤ (collapseWs raw81).length ∧ (collapseWs raw81).length ≤ 80 ∧
    validar_nombre raw81 = none := by decide

/-- C2, amended: `validar_nombre` accepts exactly the raw strings whose
raw length is 3–80 and whose trimmed, whitespace-collapsed form matches
the name regex (first character alphanumeric incl. accented Latin, tail
from the alphanumeric/space/hyphen/underscore/period class, total length
3–80), returning the collapsed form; every other input is rejected. -/
theorem validar_nombre_caracterizacion :
    (∀ (raw out : Str), validar_nombre raw = some out ↔
      3 ≤ raw.length ∧ raw.length ≤ 80 ∧ nameOk (collapseWs raw) = true ∧
        out = collapseWs raw) ∧
    (∀ s : Str, nameOk s = true ↔
      3 ≤ s.length ∧ s.length ≤ 80 ∧
      (∃ c cs, s = c :: cs ∧ isAlnumES c = true ∧ ∀ d ∈ cs, isNameTail d = true)) := by
  constructor
  · intro raw out
    unfold validar_nombre
    by_cases h3 : raw.length < 3
    · simp only [h3, if_true]
      constructor
      · rintro ⟨⟩
      · rintro ⟨h, -⟩
        omega
    · rw [if_neg h3]
      by_cases h80 : 80 < raw.length
      · rw [if_pos h80]
        constructor
        · rintro ⟨⟩
        · rintro ⟨-, h, -⟩
          omega
      · rw [if_neg h80]
        show (if nameOk (collapseWs raw) = true then some (collapseWs raw) else none) = some out ↔ _
        by_cases hok : nameOk (collapseWs raw) = true
        · rw [if_pos hok]
          constructor
          · rintro h
            cases h
            exact ⟨by omega, by omega, hok, rfl⟩
          · rintro ⟨-, -, -, rfl⟩
            rfl
        · rw [if_neg hok]
          constructor
          · rintro ⟨⟩
          · rintro ⟨-, -, h, -⟩
            exact absurd h hok
  · intro s
    cases s with
    | nil => simp [nameOk]
    | cons c cs =>
      simp only [nameOk, Bool.and_eq_true, decide_eq_true_eq, List.all_eq_true,
        List.length_cons]
      constructor
      · rintro ⟨⟨⟨hal, hlen1⟩, hlen2⟩, htail⟩
        exact ⟨by omega, by omega, c, cs, rfl, hal, htail⟩
      · rintro ⟨hlen1, hlen2, c', cs', heq, hal, htail⟩
        cases heq
        exact ⟨⟨⟨hal, by omega⟩, by omega⟩, htail⟩


/-- C3: the price validator rejects inputs that exceed 1,000,000 before
quantization runs — `1000000.004` is rejected even though its rounding
`1000000.00` lies within the bound — and accepts exactly the inputs at
most 1,000,000 whose half-up quantization to 2 fractional digits is
positive, storing that quantization. (Non-finite `Decimal` inputs — the
"not a valid decimal quantity" case — have no counterpart among the
exact rationals of this embedding; any `ℚ` value is a valid decimal
quantity.) -/
theorem validar_precio_politica :
    (∀ v : ℚ, 1000000 < v → validar_precio v = none) ∧
    validar_precio (1000000.004 : ℚ) = none ∧
    quantize2 (1000000.004 : ℚ) = 1000000 ∧
    (∀ v out : ℚ, validar_precio v = some out ↔
      0 < quantize2 v ∧ v ≤ 1000000 ∧ out = quantize2 v) := by
  refine ⟨?_, ?_, ?_, fun v out => validar_precio_eq_some_iff⟩
  · intro v hv
    unfold validar_precio
    rw [if_neg (not_not_intro (by linarith)), if_pos (not_le.mpr hv)]
  · unfold validar_precio
    rw [if_neg (not_not_intro (by norm_num)), if_pos (by norm_num)]
  · have hfl : halfUp (100 * (1000000.004 : ℚ)) = 100000000 := by
      unfold halfUp
      rw [if_pos (by norm_num), Int.floor_eq_iff]
      constructor <;> norm_num
    unfold quantize2
    rw [hfl]
    norm_num

/-- C4: every stored price is an integer number of hundredths (exactly 2
fractional digits) obtained from the exact decimal input by half-up
rounding, and in particular the exact decimal `2.005` is stored as
`2.01`. -/
theorem precio_dos_decimales_half_up :
    (∀ v out : ℚ, validar_precio v = some out →
      (100 * out).den = 1 ∧ 100 * out = ((halfUp (100 * v) : ℤ) : ℚ)) ∧
    validar_precio (2.005 : ℚ) = some (2.01 : ℚ) := by
  constructor
  · intro v out h
    rw [validar_precio_eq_some_iff] at h
    obtain ⟨-, -, rfl⟩ := h
    unfold quantize2
    constructor
    · rw [show (100 : ℚ) * (((halfUp (100 * v) : ℤ) : ℚ) / 100) =
          ((halfUp (100 * v) : ℤ) : ℚ) by ring]
      exact Rat.den_intCast _
    · ring
  · have hfl : halfUp (100 * (2.005 : ℚ)) = 201 := by
      unfold halfUp
      rw [if_pos (by norm_num), Int.floor_eq_iff]
      constructor <;> norm_num
    have hq : quantize2 (2.005 : ℚ) = 2.01 := by
      unfold quantize2
      rw [hfl]
      norm_num
    rw [validar_precio_eq_some_iff]
    exact ⟨by rw [hq]; norm_num, by norm_num, hq.symm⟩

/-- C5: the categories validator rejects an empty list and a list with
more than 10 entries; it accepts a list exactly when every entry's
normalization (trim, whitespace-collapse, lower-case, accent-strip) lies
in the fixed allowed set, and then returns the normalized entries
deduplicated by first occurrence in their original relative order; in
particular `["Fruta", "FRUTA ", "verdura"]` validates to
`["fruta", "verdura"]`. -/
theorem validar_categorias_politica :
    validar_categorias [] = none ∧
    (∀ l : List Str, 10 < l.length → validar_categorias l = none) ∧
    (∀ l : List Str, (∃ c ∈ l, normCat c ∉ CATEGORIAS_PERMITIDAS) →
      validar_categorias l = none) ∧
    (∀ l out : List Str, validar_categorias l = some out ↔
      1 ≤ l.length ∧ l.length ≤ 10 ∧ (∀ c ∈ l, normCat c ∈ CATEGORIAS_PERMITIDAS) ∧
        out = dedupKeepFirst (l.map normCat)) ∧
    validar_categorias ["Fruta".toList, "FRUTA ".toList, "verdura".toList] =
      some ["fruta".toList, "verdura".toList] := by
  refine ⟨by decide, ?_, ?_, fun l out => validar_categorias_eq_some_iff, by decide⟩
  · intro l hl
    unfold validar_categorias
    rw [if_neg (by omega), if_pos hl]
  · intro l hbad
    unfold validar_categorias
    by_cases h1 : l.length < 1
    · rw [if_pos h1]
    · rw [if_neg h1]
      by_cases h2 : 10 < l.length
      · rw [if_pos h2]
      · rw [if_neg h2]
        exact validarCatLoop_none [] [] hbad


/-! ## The accent/case scenario (C6) -/

theorem validar_precio_5 : validar_precio (5 : ℚ) = some 5 :=
  validar_precio_cast 500 (by norm_num) (by norm_num) (by norm_num)

theorem validar_precio_7 : validar_precio (7 : ℚ) = some 7 :=
  validar_precio_cast 700 (by norm_num) (by norm_num) (by norm_num)

def pcCafe1 : ProductoCreate := ⟨"Café".toList, 10, ["bebida".toList]⟩

def pcCafe2 : ProductoCreate := ⟨"Cafe".toList, 5, ["bebida".toList]⟩

def pcCafe3 : ProductoCreate := ⟨"CAFE".toList, 7, ["bebida".toList]⟩

def prodCafe1 : Producto := ⟨1, "Café".toList, 10, ["bebida".toList]⟩

def prodCafe2 : Producto := ⟨2, "Cafe".toList, 5, ["bebida".toList]⟩

def repoCafe1 : Repo := ⟨[prodCafe1], [("café".toList, 1)]⟩

def repoCafe2 : Repo := ⟨[prodCafe1, prodCafe2], [("café".toList, 1), ("cafe".toList, 2)]⟩

/-- C6: the uniqueness check folds case but does not strip accents.
Starting from the empty repository, the validated payloads "Café" and
"Cafe" (names differing only in an accent: equal after accent-stripping
the lower-cased forms, different as lower-cased forms) are both created
successfully and coexist, while a third validated payload "CAFE" —
differing from the stored "Cafe" only in letter case — is rejected with
`DuplicateName`. -/
theorem unicidad_pliega_caso_no_acentos :
    mkProductoCreate "Café".toList 10 ["bebida".toList] = some pcCafe1 ∧
    mkProductoCreate "Cafe".toList 5 ["bebida".toList] = some pcCafe2 ∧
    mkProductoCreate "CAFE".toList 7 ["bebida".toList] = some pcCafe3 ∧
    crear_producto Repo.vacio pcCafe1 1 = .ok (repoCafe1, prodCafe1) ∧
    crear_producto repoCafe1 pcCafe2 2 = .ok (repoCafe2, prodCafe2) ∧
    crear_producto repoCafe2 pcCafe3 3 = .error .duplicateName ∧
    prodCafe1 ∈ repoCafe2.items ∧ prodCafe2 ∈ repoCafe2.items ∧
    strip_accents (pyLower prodCafe1.nombre) = strip_accents (pyLower prodCafe2.nombre) ∧
    pyLower prodCafe1.nombre ≠ pyLower prodCafe2.nombre ∧
    pyLower pcCafe3.nombre = pyLower prodCafe2.nombre := by
  refine ⟨?_, ?_, ?_, rfl, rfl, rfl, ?_, ?_, by decide, by decide, by decide⟩
  · unfold mkProductoCreate
    rw [show validar_nombre "Café".toList = some "Café".toList from by decide,
      validar_precio_10,
      show validar_categorias ["bebida".toList] = some ["bebida".toList] from by decide]
    rfl
  · unfold mkProductoCreate
    rw [show validar_nombre "Cafe".toList = some "Cafe".toList from by decide,
      validar_precio_5,
      show validar_categorias ["bebida".toList] = some ["bebida".toList] from by decide]
    rfl
  · unfold mkProductoCreate
    rw [show validar_nombre "CAFE".toList = some "CAFE".toList from by decide,
      validar_precio_7,
      show validar_categorias ["bebida".toList] = some ["bebida".toList] from by decide]
    rfl
  · exact List.mem_cons_self _ _
  · exact List.mem_cons_of_mem _ (List.mem_cons_self _ _)


/-- C8: in a reachable state, a PATCH that supplies only the `precio`
field (an already Update-validated price) succeeds and leaves the
product's `nombre`, `categorias` and `id` unchanged, updating only the
price; and in general every successful full replacement or partial
update preserves the record's id. -/
theorem patch_solo_precio_marco {r : Repo} (hr : Reachable r) {id_ : Nat}
    {actual : Producto} (hobt : obtener r id_ = some actual) {rawP vp : ℚ}
    (hvp : validar_precio rawP = some vp) :
    (∃ r', actualizar_parcial_producto r id_ ⟨none, some vp, none⟩ =
        .ok (r', ⟨id_, actual.nombre, vp, actual.categorias⟩)) ∧
    (∀ (r₂ : Repo) (id₂ : Nat) (pc : ProductoCreate) (r₂' : Repo) (out₂ : Producto),
      actualizar_full r₂ id₂ pc = .ok (r₂', out₂) → out₂.id = id₂) ∧
    (∀ (r₂ : Repo) (id₂ : Nat) (pu : ProductoUpdate) (r₂' : Repo) (out₂ : Producto),
      actualizar_parcial r₂ id₂ pu = .ok (r₂', out₂) → out₂.id = id₂) := by
  have hfullId : ∀ (r₂ : Repo) (id₂ : Nat) (pc : ProductoCreate) (r₂' : Repo) (out₂ : Producto),
      actualizar_full r₂ id₂ pc = .ok (r₂', out₂) → out₂.id = id₂ := by
    intro r₂ id₂ pc r₂' out₂ h
    obtain ⟨a, -, -, hro⟩ := actualizar_full_ok h
    obtain ⟨-, hout⟩ := Prod.mk.injEq .. ▸ hro
    rw [hout]
  refine ⟨?_, hfullId, ?_⟩
  · obtain ⟨hndI, hndK, hfwd, hbwd, hcan⟩ := Reachable_WF hr
    obtain ⟨hmem, hid⟩ := (obtener_eq_some_iff hndI).mp hobt
    obtain ⟨hn, hp, hc⟩ := hcan actual hmem
    have hvp' : validar_precio vp = some vp := validar_precio_fix hvp
    have hmk : mkProductoCreate actual.nombre vp actual.categorias =
        some ⟨actual.nombre, vp, actual.categorias⟩ := by
      unfold mkProductoCreate
      rw [hn, hvp', hc]
    have hget : alGet r.nameToId (norm_name actual.nombre) = some id_ := by
      refine (alGet_eq_some_iff hndK).mpr ?_
      rw [← hid]
      exact hfwd actual hmem
    refine ⟨⟨itemsInsert r.items ⟨id_, actual.nombre, vp, actual.categorias⟩,
      alInsert (alErase r.nameToId (norm_name actual.nombre))
        (norm_name actual.nombre) id_⟩, ?_⟩
    unfold actualizar_parcial_producto
    rw [if_neg (by simp)]
    unfold actualizar_parcial
    rw [hobt]
    dsimp only [Option.getD]
    rw [hmk]
    dsimp only
    rw [if_neg (by
      rintro ⟨hne, -⟩
      exact hne rfl)]
    unfold actualizar_full
    rw [hobt]
    dsimp only
    rw [if_neg (by
      unfold existe_nombre
      rw [hget]
      simp)]
  · intro r₂ id₂ pu r₂' out₂ h
    obtain ⟨a, cand, -, -, hfull⟩ := actualizar_parcial_ok h
    exact hfullId r₂ id₂ cand r₂' out₂ hfull


/-- Witness for C8 at a concrete reachable state: patching product 1 of
`repoPan` with only the price `10`. -/
theorem patch_solo_precio_marco_witness :
    Reachable repoPan ∧ obtener repoPan 1 = some panProd ∧
    validar_precio (10 : ℚ) = some 10 ∧
    ((∃ r', actualizar_parcial_producto repoPan 1 ⟨none, some 10, none⟩ =
        .ok (r', ⟨1, panProd.nombre, 10, panProd.categorias⟩)) ∧
      (∀ (r₂ : Repo) (id₂ : Nat) (pc : ProductoCreate) (r₂' : Repo) (out₂ : Producto),
        actualizar_full r₂ id₂ pc = .ok (r₂', out₂) → out₂.id = id₂) ∧
      (∀ (r₂ : Repo) (id₂ : Nat) (pu : ProductoUpdate) (r₂' : Repo) (out₂ : Producto),
        actualizar_parcial r₂ id₂ pu = .ok (r₂', out₂) → out₂.id = id₂)) :=
  ⟨Reachable_repoPan, rfl, validar_precio_10,
    patch_solo_precio_marco Reachable_repoPan
      (show obtener repoPan 1 = some panProd from rfl) validar_precio_10⟩

/-- C9: `borrar` fails with `NotFound` when the id is absent; deleting a
stored product releases its name-index entry, so that a subsequent
create whose validated name has the same case-folded form succeeds (no
`DuplicateName`). -/
theorem borrar_libera_indice {r : Repo} (hr : Reachable r) :
    (∀ id_ : Nat, obtener r id_ = none → borrar r id_ = .error .notFound) ∧
    (∀ p ∈ r.items, ∀ (rawN : Str) (rawP : ℚ) (rawC : List Str) (pc : ProductoCreate),
      mkProductoCreate rawN rawP rawC = some pc →
      pyLower pc.nombre = pyLower p.nombre →
      ∃ r', borrar r p.id = .ok r' ∧
        existe_nombre r' (pyLower pc.nombre) none = false ∧
        ∀ newId : Nat, crear_producto r' pc newId = .ok (crear r' pc newId)) := by
  obtain ⟨hndI, hndK, hfwd, hbwd, -⟩ := Reachable_WF hr
  constructor
  · intro id_ h
    unfold borrar
    rw [h]
  · intro p hp rawN rawP rawC pc hmk hname
    have hobt : obtener r p.id = some p := (obtener_eq_some_iff hndI).mpr ⟨hp, rfl⟩
    have hget : alGet r.nameToId (norm_name p.nombre) = some p.id :=
      (alGet_eq_some_iff hndK).mpr (hfwd p hp)
    have hborrar : borrar r p.id =
        .ok ⟨itemsErase r.items p.id, alErase r.nameToId (norm_name p.nombre)⟩ := by
      unfold borrar
      rw [hobt]
      dsimp only
      rw [if_pos hget]
    have hkey : pyLower pc.nombre = norm_name p.nombre := hname
    have hnone : alGet (alErase r.nameToId (norm_name p.nombre)) (norm_name p.nombre) = none := by
      rw [alGet_eq_none_iff]
      intro hmem
      obtain ⟨kv, hkv, hfst⟩ := List.mem_map.mp hmem
      exact ((mem_alErase hndK).mp hkv).2 hfst
    have hex : existe_nombre ⟨itemsErase r.items p.id,
        alErase r.nameToId (norm_name p.nombre)⟩ (pyLower pc.nombre) none = false := by
      unfold existe_nombre
      dsimp only
      rw [hkey, hnone]
    refine ⟨_, hborrar, hex, fun newId => ?_⟩
    unfold crear_producto
    rw [if_neg (by rw [hex]; exact Bool.false_ne_true)]


/-- A validated payload whose name differs from `panProd`'s only in
letter case. -/
def pcPAN : ProductoCreate := ⟨"PAN".toList, 5, ["grano".toList]⟩

theorem mk_pcPAN : mkProductoCreate "PAN".toList 5 ["grano".toList] = some pcPAN := by
  unfold mkProductoCreate
  rw [show validar_nombre "PAN".toList = some "PAN".toList from by decide, validar_precio_5,
    show validar_categorias ["grano".toList] = some ["grano".toList] from by decide]
  rfl

/-- Witness for C9: deleting product 1 of `repoPan` and recreating a
product with the case-folded-equal name "PAN" succeeds. -/
theorem borrar_libera_indice_witness :
    Reachable repoPan ∧ panProd ∈ repoPan.items ∧
    mkProductoCreate "PAN".toList 5 ["grano".toList] = some pcPAN ∧
    pyLower pcPAN.nombre = pyLower panProd.nombre ∧
    (∃ r', borrar repoPan panProd.id = .ok r' ∧
      existe_nombre r' (pyLower pcPAN.nombre) none = false ∧
      ∀ newId : Nat, crear_producto r' pcPAN newId = .ok (crear r' pcPAN newId)) :=
  ⟨Reachable_repoPan, List.mem_singleton.mpr rfl, mk_pcPAN, by decide,
    (borrar_libera_indice Reachable_repoPan).2 panProd (List.mem_singleton.mpr rfl)
      "PAN".toList 5 ["grano".toList] pcPAN mk_pcPAN (by decide)⟩

end Catalogo
